import Mathlib

/-!
Verification of the rendering core of `rs-code-visualizer`.

The development shallowly embeds the program's rendering engine:

* `src/render/function.rs` — the layout planner `determine_dimensions`
  (aspect-ratio search over `lines_per_column`), the sequential and parallel
  orchestration of per-file rendering, the copy-merge of private per-file
  buffers into the shared canvas, and the trailing background fill.
* `src/render/chunk.rs` — the per-line compositor: code-point counting and
  truncation, the 16 KiB highlight guard, `calc_offsets`, and
  `put_char_in_image`.

Modelling conventions:

* Rust `u32`/`usize` values are modelled as `ℕ`; where the source can
  overflow (the `u32` products in the image allocation) the embedding keeps
  the wrap-around explicitly as `% 2^32` / `% 2^64`.
* Rust `f64` aspect-ratio arithmetic is modelled exactly over `ℚ`.  All
  concrete inputs used in counterexamples are small dyadic rationals whose
  `f64` computations are exact, so the `ℚ` model and the `f64` code agree
  on them.
* The `while` loops of `determine_dimensions` are modelled with an explicit
  fuel argument; a result of `none` models a run of the loop that has not
  exited within the given fuel.  For the divergence result the statement is
  quantified over all fuel values.
* External crates (`syntect` highlighting, `unifont_bitmap` glyph decoding)
  are not part of this repository; the highlight function and the glyph
  bitmap are therefore parameters of the corresponding definitions, exactly
  as they are opaque inputs of the corresponding Rust code paths.
-/

/-! ## Pixels, styles and canvases -/

/-- An 8-bit RGB pixel, as stored in the `image::RgbImage` buffers. -/
structure Pix where
  r : ℕ
  g : ℕ
  b : ℕ
deriving DecidableEq, Repr

/-- A `syntect` RGBA color (`syntect::highlighting::Color`). -/
structure SynColor where
  r : ℕ
  g : ℕ
  b : ℕ
  a : ℕ
deriving DecidableEq, Repr

/-- The black color constant `Color::BLACK` of `syntect`. -/
def SynColor.BLACK : SynColor := ⟨0, 0, 0, 255⟩

/-- The parts of `syntect::highlighting::Style` the compositor reads: a
foreground and a background color (the font style is never consulted by the
rendering code we verify). -/
structure Style where
  foreground : SynColor
  background : SynColor
deriving DecidableEq, Repr

/-- An RGB canvas: width, height and the row-major pixel buffer, modelling
`image::ImageBuffer<Rgb<u8>, _>`.  The byte buffer of the real image holds
`3` bytes per `Pix` entry. -/
structure Canvas where
  w : ℕ
  h : ℕ
  data : List Pix
deriving DecidableEq, Repr

/-- Read a pixel; `none` when the coordinates are out of bounds (the spot
where the `image` crate would panic). -/
def Canvas.getPixel (c : Canvas) (x y : ℕ) : Option Pix :=
  if x < c.w ∧ y < c.h then c.data.get? (y * c.w + x) else none

/-- Apply a list of `(index, value)` pixel writes to a row-major buffer in
order.  `List.set` leaves the list unchanged on an out-of-range index, which
never happens for the in-bounds writes the merging code produces. -/
def applyWrites (ws : List (ℕ × Pix)) (d : List Pix) : List Pix :=
  ws.foldl (fun acc ip => acc.set ip.1 ip.2) d

theorem applyWrites_nil (d : List Pix) : applyWrites [] d = d := rfl

theorem applyWrites_cons (i : ℕ) (p : Pix) (ws : List (ℕ × Pix)) (d : List Pix) :
    applyWrites ((i, p) :: ws) d = applyWrites ws (d.set i p) := rfl

theorem applyWrites_length (ws : List (ℕ × Pix)) (d : List Pix) :
    (applyWrites ws d).length = d.length := by
  induction ws generalizing d with
  | nil => rfl
  | cons hd tl ih => rw [applyWrites_cons hd.1 hd.2]; simp [ih]

/-- Indices not mentioned in the write list keep their old value. -/
theorem applyWrites_get_not_mem (ws : List (ℕ × Pix)) (d : List Pix) (i : ℕ)
    (h : i ∉ ws.map Prod.fst) :
    (applyWrites ws d).get? i = d.get? i := by
  induction ws generalizing d with
  | nil => rfl
  | cons hd tl ih =>
    simp only [List.map_cons, List.mem_cons] at h
    push_neg at h
    rw [applyWrites_cons hd.1 hd.2, ih _ h.2, List.get?_eq_getElem?,
      List.get?_eq_getElem?, List.getElem?_set_ne (fun he => h.1 he.symm)]

/-- If the write list touches pairwise distinct indices, each written index
ends with its written value. -/
theorem applyWrites_get_of_nodup (ws : List (ℕ × Pix)) (d : List Pix) (i : ℕ) (p : Pix)
    (hnd : (ws.map Prod.fst).Nodup) (hm : (i, p) ∈ ws) (hi : i < d.length) :
    (applyWrites ws d).get? i = some p := by
  induction ws generalizing d with
  | nil => simp at hm
  | cons hd tl ih =>
    simp only [List.map_cons, List.nodup_cons] at hnd
    rcases List.mem_cons.1 hm with he | hm'
    · subst he
      rw [applyWrites_cons i p, applyWrites_get_not_mem _ _ _ hnd.1,
        List.get?_eq_getElem?, List.getElem?_set_self (by simpa using hi)]
    · rw [applyWrites_cons hd.1 hd.2]
      exact ih (d.set hd.1 hd.2) hnd.2 hm' (by simpa using hi)

/-- Writes through disjoint index sets commute. -/
theorem applyWrites_set_comm (ws : List (ℕ × Pix)) (d : List Pix) (i : ℕ) (p : Pix)
    (h : i ∉ ws.map Prod.fst) :
    applyWrites ws (d.set i p) = (applyWrites ws d).set i p := by
  induction ws generalizing d with
  | nil => rfl
  | cons hd tl ih =>
    simp only [List.map_cons, List.mem_cons] at h
    push_neg at h
    rw [applyWrites_cons hd.1 hd.2, applyWrites_cons hd.1 hd.2,
      List.set_comm p hd.2 d h.1, ih _ h.2]

theorem applyWrites_comm (w1 w2 : List (ℕ × Pix)) (d : List Pix)
    (h : ∀ i ∈ w1.map Prod.fst, i ∉ w2.map Prod.fst) :
    applyWrites w1 (applyWrites w2 d) = applyWrites w2 (applyWrites w1 d) := by
  induction w1 generalizing d with
  | nil => rfl
  | cons hd tl ih =>
    have hhd : hd.1 ∉ w2.map Prod.fst := h hd.1 (by simp)
    rw [applyWrites_cons hd.1 hd.2, applyWrites_cons hd.1 hd.2,
      ← applyWrites_set_comm w2 d hd.1 hd.2 hhd]
    exact ih (d.set hd.1 hd.2)
      (fun i hi => h i (by simp only [List.map_cons, List.mem_cons]; exact Or.inr hi))

/-! ## Line truncation and code-point counting (`src/render/chunk.rs`, `process`)

The Rust code walks the line's `chars()` iterator: it first consumes up to
`column_width` code points, summing their UTF-8 byte sizes (this consumes
`min column_width line.length` characters), then adds the count of whatever
the iterator still holds.  A line is modelled as its list of code points. -/

/-- The `num_chars` computed for a line: the count of code points consumed by
the `take(column_width)` pass plus the count of the remaining iterator. -/
def numChars (column_width : ℕ) (line : List Char) : ℕ :=
  (line.take column_width).length + (line.drop column_width).length

/-- The byte offset of the `column_width`-th code point:
`bytes_till_char_limit` of the source, the sum of UTF-8 sizes of the
consumed code points. -/
def bytesTillCharLimit (column_width : ℕ) (line : List Char) : ℕ :=
  ((line.take column_width).map Char.utf8Size).sum

/-- The `possibly_truncated_line`: when the line holds at least
`column_width` code points, the byte slice `&line[..bytes_till_char_limit]`,
which is exactly the first `column_width` code points; otherwise the full
line. -/
def possiblyTruncated (column_width : ℕ) (line : List Char) : List Char :=
  if numChars column_width line ≥ column_width then line.take column_width else line

/-- The `longest_line_in_chars` accumulator: the running maximum of
`num_chars` over the lines of the chunk, starting at `0`. -/
def longestLineInChars (column_width : ℕ) (lines : List (List Char)) : ℕ :=
  lines.foldl (fun acc l => max acc (numChars column_width l)) 0

theorem numChars_eq_length (column_width : ℕ) (line : List Char) :
    numChars column_width line = line.length := by
  simp [numChars]; omega

theorem longestLineInChars_eq (column_width : ℕ) (lines : List (List Char)) :
    longestLineInChars column_width lines = (lines.map List.length).foldl max 0 := by
  rw [longestLineInChars, List.foldl_map]
  simp only [numChars_eq_length]

/-! ## The 16 KiB highlight guard (`src/render/chunk.rs`, lines 111-120) -/

/-- The UTF-8 byte length of a line (`line.len()` on the Rust side). -/
def byteLen (line : List Char) : ℕ := (line.map Char.utf8Size).sum

/-- `default_bg_color` of `src/render/chunk.rs`: the fallback style used for
oversized lines — gray `(200,200,200)` foreground and the previously derived
background color, or black if none was derived yet. -/
def default_bg_color (background : Option Pix) : Style where
  foreground := ⟨200, 200, 200, 255⟩
  background :=
    match background with
    | some c => ⟨c.r, c.g, c.b, 255⟩
    | none => SynColor.BLACK

/-- The text variant fed to the highlight closure: the truncated line when
`highlight_truncated_lines` is set, the full line otherwise. -/
def chosenLineText (highlight_truncated_lines : Bool) (column_width : ℕ)
    (rawLine : List Char) : List Char :=
  if highlight_truncated_lines then possiblyTruncated column_width rawLine else rawLine

/-- The span list a line is rendered from (the `regions` slice of the
source): the single fallback span when the selected text exceeds
`1024 * 16` bytes, the result of the highlight closure otherwise.  Note the
guard tests `line.len()` of the *selected* variant, not of the raw line. -/
def lineRegions (highlight_truncated_lines : Bool) (column_width : ℕ)
    (rawLine : List Char) (background : Option Pix)
    (highlight : List Char → List (Style × List Char)) : List (Style × List Char) :=
  if byteLen (chosenLineText highlight_truncated_lines column_width rawLine) > 1024 * 16 then
    [(default_bg_color background, possiblyTruncated column_width rawLine)]
  else
    highlight (chosenLineText highlight_truncated_lines column_width rawLine)

theorem byteLen_replicate_a (n : ℕ) : byteLen (List.replicate n 'a') = n := by
  have h1 : Char.utf8Size 'a' = 1 := by decide
  simp [byteLen, List.map_replicate, List.sum_replicate, h1]

/-- C5: a line of exactly `column_width + 1` code points is truncated to its
first `column_width` code points for display, while `num_chars` — the value
fed into `longest_line_in_chars` — is the untruncated count
`column_width + 1`; and `longest_line_in_chars` is the maximum over lines of
the pre-truncation code-point count. -/
theorem truncation_counts_untruncated (column_width : ℕ) (line : List Char)
    (lines : List (List Char)) (h : line.length = column_width + 1) :
    possiblyTruncated column_width line = line.take column_width ∧
    numChars column_width line = column_width + 1 ∧
    longestLineInChars column_width lines = (lines.map List.length).foldl max 0 := by
  refine ⟨?_, ?_, longestLineInChars_eq _ _⟩
  · rw [possiblyTruncated, if_pos (by rw [numChars_eq_length, h]; omega)]
  · rw [numChars_eq_length, h]

theorem truncation_counts_untruncated_witness :
    possiblyTruncated 2 ['a', 'b', 'c'] = ['a', 'b'] ∧
    numChars 2 ['a', 'b', 'c'] = 2 + 1 ∧
    longestLineInChars 2 [['a', 'b', 'c'], ['x']]
      = ([['a', 'b', 'c'], ['x']].map List.length).foldl max 0 := by
  have h := truncation_counts_untruncated 2 ['a', 'b', 'c'] [['a', 'b', 'c'], ['x']]
    (by decide)
  exact ⟨by rw [h.1]; rfl, h.2.1, h.2.2⟩

/-- C6 counterexample: the 16 KiB guard tests the byte length of the text
variant *selected for highlighting*, not of the raw line.  With
`highlight_truncated_lines = true` and `column_width = 1`, a raw line of
16385 bytes is truncated to 1 byte before the guard, so the highlight
closure *is* consulted — the span list tracks the closure instead of being
the single fallback span the claim demands. -/
theorem oversized_line_guard_cex :
    byteLen (List.replicate 16385 'a') = 16385 ∧
    lineRegions true 1 (List.replicate 16385 'a') none (fun _ => []) = [] ∧
    lineRegions true 1 (List.replicate 16385 'a') none
        (fun t => [(default_bg_color none, t)]) = [(default_bg_color none, ['a'])] ∧
    ([] : List (Style × List Char))
      ≠ [(default_bg_color none, possiblyTruncated 1 (List.replicate 16385 'a'))] := by
  have htrunc : possiblyTruncated 1 (List.replicate 16385 'a') = ['a'] := by
    rw [possiblyTruncated,
      if_pos (by rw [numChars_eq_length, List.length_replicate]; omega),
      List.take_replicate]
    rfl
  have hchosen : chosenLineText true 1 (List.replicate 16385 'a') = ['a'] := by
    rw [chosenLineText, if_pos rfl, htrunc]
  have hguard : ¬ byteLen (chosenLineText true 1 (List.replicate 16385 'a')) > 1024 * 16 := by
    rw [hchosen]
    decide
  refine ⟨byteLen_replicate_a 16385, ?_, ?_, fun hcontra => List.noConfusion hcontra⟩
  · rw [lineRegions, if_neg hguard]
  · rw [lineRegions, if_neg hguard, hchosen]

/-- C6 amended: for every line whose *selected highlight text* (the
truncated line when `highlight_truncated_lines` is set, the raw line
otherwise) exceeds 16384 bytes, the highlight closure is never consulted —
the span list is the same for every closure — and the line renders from
exactly one span carrying the fixed fallback style: gray `(200,200,200)`
foreground and, as background, the previously derived background color or
black if none was derived yet.  When `highlight_truncated_lines = false`
the selected text is the raw line, so the claim as stated holds in that
mode. -/
theorem oversized_line_guard (highlight_truncated_lines : Bool) (column_width : ℕ)
    (rawLine : List Char) (background : Option Pix)
    (h : byteLen (chosenLineText highlight_truncated_lines column_width rawLine)
        > 1024 * 16) :
    (∀ highlight,
      lineRegions highlight_truncated_lines column_width rawLine background highlight
        = [(default_bg_color background, possiblyTruncated column_width rawLine)]) ∧
    (default_bg_color background).foreground = ⟨200, 200, 200, 255⟩ ∧
    (∀ c, background = some c → (default_bg_color background).background
        = ⟨c.r, c.g, c.b, 255⟩) ∧
    (background = none → (default_bg_color background).background = SynColor.BLACK) ∧
    (highlight_truncated_lines = false → byteLen rawLine > 1024 * 16) := by
  refine ⟨fun highlight => ?_, rfl, ?_, ?_, ?_⟩
  · rw [lineRegions, if_pos h]
  · rintro c rfl; rfl
  · rintro rfl; rfl
  · rintro rfl
    rw [chosenLineText, if_neg (by simp)] at h
    exact h

theorem oversized_line_guard_witness :
    lineRegions false 1 (List.replicate 16385 'a') (some ⟨1, 2, 3⟩) (fun _ => [])
      = [(default_bg_color (some ⟨1, 2, 3⟩),
          possiblyTruncated 1 (List.replicate 16385 'a'))] := by
  have h := oversized_line_guard false 1 (List.replicate 16385 'a') (some ⟨1, 2, 3⟩)
    (by rw [chosenLineText, if_neg (by simp), byteLen_replicate_a]; norm_num)
  exact h.1 (fun _ => [])

/-! ## The layout planner (`src/render/function.rs`, `determine_dimensions`)

The planner searches for the `lines_per_column` whose achievable aspect
ratio is closest to the target.  Its `f64` arithmetic is modelled over `ℚ`.
Note two literal constants of the source that the model reproduces exactly:
the initial `cur_aspect_ratio` and both extreme ratios divide by the literal
`2.0` instead of `line_height`, and `tallest_aspect_ratio` *multiplies*
`column_width / total_line_count` by `2.0`.  The two `while` loops carry an
explicit fuel argument; `none` models a loop that has not exited within the
given fuel. -/

/-- The `required_columns` computation repeated throughout
`determine_dimensions`: integer division rounded upward. -/
def requiredColumns (total_line_count lines_per_column : ℕ) : ℕ :=
  total_line_count / lines_per_column +
    if total_line_count % lines_per_column ≠ 0 then 1 else 0

/-- The `cur_aspect_ratio` recomputed at the end of each search step:
`required_columns * column_width / (lines_per_column * line_height)`. -/
def aspectRatio (column_width line_height total_line_count lines_per_column : ℕ) : ℚ :=
  (requiredColumns total_line_count lines_per_column * column_width : ℚ) /
    (lines_per_column * line_height)

/-- The inner `while required_columns == last_required_columns` loop of the
`force_full_columns` branch: advance `lines_per_column` until
`required_columns` changes.  `none` models non-termination (the loop body
has no other exit). -/
def nextCheckpoint (total_line_count lastRequiredColumns : ℕ) :
    ℕ → ℕ → Option ℕ
  | 0, _ => none
  | fuel + 1, lines_per_column =>
    if requiredColumns total_line_count (lines_per_column + 1) = lastRequiredColumns then
      nextCheckpoint total_line_count lastRequiredColumns fuel (lines_per_column + 1)
    else
      some (lines_per_column + 1)

/-- The continuation condition of the outer search loop:
`(last_checked_aspect_ratio - target).abs() > (cur_aspect_ratio -
target).abs()`.  `last = none` models the initial `f64::MAX`, whose distance
from the (finite, in-range) target exceeds every distance that arises from
an achievable ratio, so the comparison is true. -/
def loopCond (target : ℚ) (last : Option ℚ) (cur : ℚ) : Prop :=
  match last with
  | none => True
  | some l => |l - target| > |cur - target|

instance loopCond.instDecidable (target : ℚ) (last : Option ℚ) (cur : ℚ) :
    Decidable (loopCond target last cur) :=
  match last with
  | none => isTrue trivial
  | some l => inferInstanceAs (Decidable (|l - target| > |cur - target|))

/-- The outer de-widening search loop of `determine_dimensions`.  The state
is `(lines_per_column, last_checked_aspect_ratio, cur_aspect_ratio,
last_column_line_limit)`; `last = none` models the initial `f64::MAX`
(whose distance from any representable target exceeds any achievable one).
On exit the source reverts `lines_per_column` — by one step in the plain
branch, to `last_column_line_limit` in the `force_full_columns` branch — and
recomputes `required_columns`.  The inner loop's fuel is
`total_line_count + 1`, which never exhausts when the inner loop terminates
(proved below); `none` models divergence. -/
def searchLoop (column_width total_line_count line_height : ℕ) (target : ℚ)
    (force_full_columns : Bool) :
    ℕ → ℕ → Option ℚ → ℚ → ℕ → Option (ℕ × ℕ)
  | 0, _, _, _, _ => none
  | fuel + 1, lines_per_column, last, cur, last_column_line_limit =>
    if loopCond target last cur then
      if force_full_columns then
        match nextCheckpoint total_line_count
            (requiredColumns total_line_count lines_per_column)
            (total_line_count + 1) lines_per_column with
        | none => none
        | some lpc2 =>
          searchLoop column_width total_line_count line_height target
            force_full_columns fuel lpc2 (some cur)
            (aspectRatio column_width line_height total_line_count lpc2)
            lines_per_column
      else
        searchLoop column_width total_line_count line_height target
          force_full_columns fuel (lines_per_column + 1) (some cur)
          (aspectRatio column_width line_height total_line_count (lines_per_column + 1))
          last_column_line_limit
    else
      some
        (if force_full_columns then last_column_line_limit
         else if lines_per_column = 1 then lines_per_column else lines_per_column - 1,
         requiredColumns total_line_count
           (if force_full_columns then last_column_line_limit
            else if lines_per_column = 1 then lines_per_column else lines_per_column - 1))

/-- The `(lines_per_column, required_columns)` result of
`determine_dimensions`: the two extreme-ratio shortcuts (computed with the
source's literal `2.0` constants), otherwise the de-widening search started
at `lines_per_column = 1` with `cur_aspect_ratio = column_width *
total_line_count / (1 * 2.0)`. -/
def determine_dimensions (fuel column_width total_line_count line_height : ℕ)
    (target : ℚ) (force_full_columns : Bool) : Option (ℕ × ℕ) :=
  let tallest : ℚ := (column_width : ℚ) / total_line_count * 2
  let widest : ℚ := (total_line_count : ℚ) * column_width / 2
  if target ≤ tallest then some (total_line_count, 1)
  else if target ≥ widest then some (1, total_line_count)
  else
    searchLoop column_width total_line_count line_height target force_full_columns
      fuel 1 none ((column_width : ℚ) * total_line_count / (1 * 2)) 1

/-- The image allocation of `determine_dimensions` (function.rs 109-120):
`imgx = required_columns * column_width`, `imgy = min(total_line_count,
lines_per_column) * line_height`, with the `u32` wrap-around explicit, and
the byte count of the anonymous mapping backing the canvas:
`imgx * imgy * CHANNEL_COUNT` with `CHANNEL_COUNT = 3` (as `usize`). -/
structure ImageAlloc where
  imgx : ℕ
  imgy : ℕ
  numBytes : ℕ
deriving DecidableEq, Repr

def imageAlloc (column_width line_height total_line_count
    lines_per_column required_columns : ℕ) : ImageAlloc :=
  let imgx := required_columns * column_width % 2 ^ 32
  let imgy := min total_line_count lines_per_column * line_height % 2 ^ 32
  { imgx := imgx, imgy := imgy, numBytes := imgx * imgy * 3 % 2 ^ 64 }

theorem requiredColumns_of_le (n lpc : ℕ) (hn : 0 < n) (h : n ≤ lpc) :
    requiredColumns n lpc = 1 := by
  rcases eq_or_lt_of_le h with rfl | hlt
  · rw [requiredColumns, Nat.div_self hn, Nat.mod_self]
    simp
  · rw [requiredColumns, Nat.div_eq_of_lt hlt, Nat.mod_eq_of_lt hlt]
    simp [hn.ne']

/-- When `required_columns` has reached `1` (that is, `lines_per_column ≥
total_line_count`), the inner loop of the `force_full_columns` branch never
sees `required_columns` change again, so it never exits — for every fuel the
model yields `none`. -/
theorem nextCheckpoint_none (n : ℕ) (hn : 0 < n) :
    ∀ fuel lpc, n ≤ lpc → nextCheckpoint n 1 fuel lpc = none := by
  intro fuel
  induction fuel with
  | zero => intro lpc _; rfl
  | succ f ih =>
    intro lpc h
    rw [nextCheckpoint, if_pos (requiredColumns_of_le n (lpc + 1) hn (by omega))]
    exact ih _ (by omega)

theorem aspectRatio_1_1_4_2 : aspectRatio 1 1 4 2 = 1 := by
  norm_num [aspectRatio, requiredColumns]

theorem aspectRatio_1_1_4_4 : aspectRatio 1 1 4 4 = 1 / 4 := by
  norm_num [aspectRatio, requiredColumns]

theorem searchLoop_diverges_state3 (fuel : ℕ) :
    searchLoop 1 4 1 (9/16) true fuel 4 (some (aspectRatio 1 1 4 2))
      (aspectRatio 1 1 4 4) 2 = none := by
  cases fuel with
  | zero => simp only [searchLoop]
  | succ f =>
    simp only [searchLoop]
    have hcond : loopCond (9/16) (some (aspectRatio 1 1 4 2)) (aspectRatio 1 1 4 4) := by
      show |aspectRatio 1 1 4 2 - 9/16| > |aspectRatio 1 1 4 4 - 9/16|
      rw [aspectRatio_1_1_4_2, aspectRatio_1_1_4_4,
        abs_of_nonneg (by norm_num : (0:ℚ) ≤ 1 - 9/16),
        abs_of_nonpos (by norm_num : (1/4 : ℚ) - 9/16 ≤ 0)]
      norm_num
    have hnc : nextCheckpoint 4 (requiredColumns 4 4) (4 + 1) 4 = none := by decide
    rw [if_pos hcond, if_pos (by trivial), hnc]

theorem searchLoop_diverges_state2 (fuel : ℕ) :
    searchLoop 1 4 1 (9/16) true fuel 2 (some ((1 : ℚ) * 4 / (1 * 2)))
      (aspectRatio 1 1 4 2) 1 = none := by
  cases fuel with
  | zero => simp only [searchLoop]
  | succ f =>
    simp only [searchLoop]
    have hcond : loopCond (9/16) (some ((1 : ℚ) * 4 / (1 * 2))) (aspectRatio 1 1 4 2) := by
      show |(1 : ℚ) * 4 / (1 * 2) - 9/16| > |aspectRatio 1 1 4 2 - 9/16|
      rw [aspectRatio_1_1_4_2, show ((1 : ℚ) * 4 / (1 * 2)) = 2 by norm_num,
        abs_of_nonneg (by norm_num : (0:ℚ) ≤ 2 - 9/16),
        abs_of_nonneg (by norm_num : (0:ℚ) ≤ 1 - 9/16)]
      norm_num
    have hnc : nextCheckpoint 4 (requiredColumns 4 2) (4 + 1) 2 = some 4 := by decide
    rw [if_pos hcond, if_pos (by trivial), hnc]
    exact searchLoop_diverges_state3 f

theorem searchLoop_diverges_state1 (fuel : ℕ) :
    searchLoop 1 4 1 (9/16) true fuel 1 none ((1 : ℚ) * 4 / (1 * 2)) 1 = none := by
  cases fuel with
  | zero => simp only [searchLoop]
  | succ f =>
    simp only [searchLoop]
    have hnc : nextCheckpoint 4 (requiredColumns 4 1) (4 + 1) 1 = some 2 := by decide
    rw [if_pos (show loopCond (9/16) none ((1 : ℚ) * 4 / (1 * 2)) from trivial),
      if_pos (by trivial), hnc]
    exact searchLoop_diverges_state2 f

/-- C3: the layout search is *not* total.  At `column_width = 1`,
`total_line_count = 4`, `line_height = 1`, `target_aspect_ratio = 9/16`
(all values exactly representable in `f64`) and `force_full_columns =
true`, the outer loop still enters its body once `lines_per_column = 4`
(`required_columns = 1`), and the inner loop then increments
`lines_per_column` forever without `required_columns` ever changing: the
model returns `none` for every fuel, both for the whole planner and for the
inner loop from any `lines_per_column ≥ total_line_count`.  (In the
compiled program `lines_per_column : u32` overflows, after which the
`total_line_count / lines_per_column` at `lines_per_column = 0` panics.) -/
theorem determine_dimensions_diverges :
    (∀ fuel, determine_dimensions fuel 1 4 1 (9/16) true = none) ∧
    (∀ fuel lpc, 4 ≤ lpc → nextCheckpoint 4 1 fuel lpc = none) := by
  constructor
  · intro fuel
    simp only [determine_dimensions]
    rw [if_neg (by norm_num), if_neg (by norm_num)]
    exact searchLoop_diverges_state1 fuel
  · exact fun fuel lpc h => nextCheckpoint_none 4 (by norm_num) fuel lpc h

theorem determine_dimensions_diverges_witness :
    determine_dimensions 1000 1 4 1 (9/16) true = none ∧
    nextCheckpoint 4 1 7 5 = none :=
  ⟨determine_dimensions_diverges.1 1000,
   determine_dimensions_diverges.2 7 5 (by norm_num)⟩

/-- C4 counterexample: the allocated image width carries no glyph-cell
factor.  At `column_width = 1`, `total_line_count = 1`, `line_height = 1`,
`target = 1` the planner returns `(1, 1)` and the allocation computes
`imgx = required_columns * column_width = 1`, not `1 * 1 * 8` nor
`1 * 1 * 16` (the two glyph cell widths of the font). -/
theorem canvas_allocation_cex :
    determine_dimensions 3 1 1 1 1 false = some (1, 1) ∧
    (imageAlloc 1 1 1 1 1).imgx = 1 ∧
    (imageAlloc 1 1 1 1 1).imgx ≠ 1 * 1 * 8 ∧
    (imageAlloc 1 1 1 1 1).imgx ≠ 1 * 1 * 16 := by
  refine ⟨?_, by decide, by decide, by decide⟩
  simp only [determine_dimensions]
  rw [if_pos (by norm_num)]

/-- C4 amended: for every layout `(lines_per_column, required_columns)`
produced by the planner, and absent `u32`/`usize` overflow, the allocation
satisfies `imgx = required_columns * column_width` (the column width is
already in pixels; no glyph-cell factor), `imgy = min(total_line_count,
lines_per_column) * line_height`, and the anonymous mapping backing the
canvas holds exactly `imgx * imgy * 3` bytes. -/
theorem canvas_allocation_dims (fuel column_width line_height total_line_count : ℕ)
    (target : ℚ) (force_full_columns : Bool) (lpc rcols : ℕ)
    (hres : determine_dimensions fuel column_width total_line_count line_height target
        force_full_columns = some (lpc, rcols))
    (hx : rcols * column_width < 2 ^ 32)
    (hy : min total_line_count lpc * line_height < 2 ^ 32)
    (hb : rcols * column_width * (min total_line_count lpc * line_height) * 3 < 2 ^ 64) :
    (imageAlloc column_width line_height total_line_count lpc rcols).imgx
        = rcols * column_width ∧
    (imageAlloc column_width line_height total_line_count lpc rcols).imgy
        = min total_line_count lpc * line_height ∧
    (imageAlloc column_width line_height total_line_count lpc rcols).numBytes
        = (imageAlloc column_width line_height total_line_count lpc rcols).imgx *
          (imageAlloc column_width line_height total_line_count lpc rcols).imgy * 3 := by
  simp only [imageAlloc, Nat.mod_eq_of_lt hx, Nat.mod_eq_of_lt hy]
  exact ⟨trivial, trivial, Nat.mod_eq_of_lt hb⟩

theorem canvas_allocation_dims_witness :
    (imageAlloc 1 1 1 1 1).imgx = 1 * 1 ∧
    (imageAlloc 1 1 1 1 1).imgy = min 1 1 * 1 ∧
    (imageAlloc 1 1 1 1 1).numBytes
        = (imageAlloc 1 1 1 1 1).imgx * (imageAlloc 1 1 1 1 1).imgy * 3 := by
  have h := canvas_allocation_dims 3 1 1 1 1 false 1 1
    (by simp only [determine_dimensions]; rw [if_pos (by norm_num)]) (by norm_num)
    (by norm_num) (by norm_num)
  exact h

/-! ## Cell geometry (`src/render/chunk.rs`, `calc_offsets`) -/

/-- `calc_offsets`: the `(x, y)` pixel offsets of a global line number,
wrapping columns of lines into the target image. -/
def calc_offsets (line_num lines_per_column column_width line_height : ℕ) : ℕ × ℕ :=
  (line_num / lines_per_column * column_width,
   line_num % lines_per_column * line_height)

/-- Membership of a pixel coordinate in the cell rectangle of global line
`g`: the `column_width × line_height` block anchored at `calc_offsets g`. -/
def inRect (lines_per_column column_width line_height g x y : ℕ) : Prop :=
  g / lines_per_column * column_width ≤ x ∧
  x < g / lines_per_column * column_width + column_width ∧
  g % lines_per_column * line_height ≤ y ∧
  y < g % lines_per_column * line_height + line_height

instance inRect.instDecidable (lines_per_column column_width line_height g x y : ℕ) :
    Decidable (inRect lines_per_column column_width line_height g x y) := by
  unfold inRect
  infer_instance

theorem inRect_of_cell (lpc cw lh g x hh : ℕ) (hx : x < cw) (hhh : hh < lh) :
    inRect lpc cw lh g (g / lpc * cw + x) (g % lpc * lh + hh) :=
  ⟨Nat.le_add_right _ _, by omega, Nat.le_add_right _ _, by omega⟩

/-- Distinct global lines occupy disjoint cell rectangles: the column index
recovers `g / lines_per_column` and the row index recovers
`g % lines_per_column`, which together determine `g`. -/
theorem inRect_disjoint (lpc cw lh g g' x y : ℕ) (hcw : 0 < cw) (hlh : 0 < lh)
    (hne : g ≠ g') (h1 : inRect lpc cw lh g x y) (h2 : inRect lpc cw lh g' x y) :
    False := by
  obtain ⟨ha1, ha2, ha3, ha4⟩ := h1
  obtain ⟨hb1, hb2, hb3, hb4⟩ := h2
  have hcol : g / lpc = g' / lpc := by
    by_contra hc
    rcases Nat.lt_or_ge (g / lpc) (g' / lpc) with hlt | hge
    · have : g / lpc * cw + cw ≤ g' / lpc * cw := by
        calc g / lpc * cw + cw = (g / lpc + 1) * cw := by ring
        _ ≤ g' / lpc * cw := Nat.mul_le_mul_right cw hlt
      omega
    · have hlt' : g' / lpc < g / lpc := lt_of_le_of_ne hge (fun he => hc he.symm)
      have : g' / lpc * cw + cw ≤ g / lpc * cw := by
        calc g' / lpc * cw + cw = (g' / lpc + 1) * cw := by ring
        _ ≤ g / lpc * cw := Nat.mul_le_mul_right cw hlt'
      omega
  have hrow : g % lpc = g' % lpc := by
    by_contra hc
    rcases Nat.lt_or_ge (g % lpc) (g' % lpc) with hlt | hge
    · have : g % lpc * lh + lh ≤ g' % lpc * lh := by
        calc g % lpc * lh + lh = (g % lpc + 1) * lh := by ring
        _ ≤ g' % lpc * lh := Nat.mul_le_mul_right lh hlt
      omega
    · have hlt' : g' % lpc < g % lpc := lt_of_le_of_ne hge (fun he => hc he.symm)
      have : g' % lpc * lh + lh ≤ g % lpc * lh := by
        calc g' % lpc * lh + lh = (g' % lpc + 1) * lh := by ring
        _ ≤ g % lpc * lh := Nat.mul_le_mul_right lh hlt'
      omega
  apply hne
  calc g = lpc * (g / lpc) + g % lpc := (Nat.div_add_mod g lpc).symm
  _ = lpc * (g' / lpc) + g' % lpc := by rw [hcol, hrow]
  _ = g' := Nat.div_add_mod g' lpc

/-- Row-major pixel index decoding is injective for in-row coordinates. -/
theorem enc_inj (w x1 y1 x2 y2 : ℕ) (hx1 : x1 < w) (hx2 : x2 < w)
    (h : y1 * w + x1 = y2 * w + x2) : y1 = y2 ∧ x1 = x2 := by
  have hy : y1 = y2 := by
    by_contra hc
    rcases Nat.lt_or_ge y1 y2 with hlt | hge
    · have h3 : y1 * w + w ≤ y2 * w := by
        rw [← Nat.succ_mul]
        exact Nat.mul_le_mul_right w hlt
      omega
    · have hlt' : y2 < y1 := lt_of_le_of_ne hge (fun he => hc he.symm)
      have h3 : y2 * w + w ≤ y1 * w := by
        rw [← Nat.succ_mul]
        exact Nat.mul_le_mul_right w hlt'
      omega
  subst hy
  exact ⟨rfl, by omega⟩

/-! ## Generic doubly nested write loops

All pixel-writing loops of the source are two nested `for` loops over ranges
producing at most one write per iteration; `gridWrites` captures them, in
source iteration order. -/

def gridWrites (outer inner : ℕ) (f : ℕ → ℕ → Option (ℕ × Pix)) : List (ℕ × Pix) :=
  ((List.range outer).product (List.range inner)).filterMap fun k => f k.1 k.2

theorem mem_gridWrites (outer inner : ℕ) (f : ℕ → ℕ → Option (ℕ × Pix)) (i : ℕ) (p : Pix) :
    (i, p) ∈ gridWrites outer inner f ↔
      ∃ a, a < outer ∧ ∃ b, b < inner ∧ f a b = some (i, p) := by
  simp only [gridWrites, List.mem_filterMap, List.pair_mem_product, List.mem_range, Prod.exists]
  constructor
  · rintro ⟨a, b, ⟨ha, hb⟩, hf⟩
    exact ⟨a, ha, b, hb, hf⟩
  · rintro ⟨a, ha, b, hb, hf⟩
    exact ⟨a, b, ⟨ha, hb⟩, hf⟩

theorem mem_map_fst_gridWrites (outer inner : ℕ) (f : ℕ → ℕ → Option (ℕ × Pix)) (i : ℕ)
    (hi : i ∈ (gridWrites outer inner f).map Prod.fst) :
    ∃ a, a < outer ∧ ∃ b, b < inner ∧ ∃ p, f a b = some (i, p) := by
  rcases List.mem_map.1 hi with ⟨⟨i', p⟩, hm, he⟩
  cases he
  rcases (mem_gridWrites outer inner f i' p).1 hm with ⟨a, ha, b, hb, hf⟩
  exact ⟨a, ha, b, hb, p, hf⟩

theorem nodup_filterMap_mem {α β : Type} (l : List α) (f : α → Option β)
    (hl : l.Nodup)
    (hinj : ∀ a, a ∈ l → ∀ a', a' ∈ l → ∀ b, f a = some b → f a' = some b → a = a') :
    (l.filterMap f).Nodup := by
  induction l with
  | nil => simp
  | cons hd tl ih =>
    have hl' := List.nodup_cons.1 hl
    have htl : (tl.filterMap f).Nodup :=
      ih hl'.2 (fun a ha a' ha' b hb hb' =>
        hinj a (List.mem_cons_of_mem _ ha) a' (List.mem_cons_of_mem _ ha') b hb hb')
    rw [List.filterMap_cons]
    cases hfhd : f hd with
    | none => exact htl
    | some b =>
      rw [List.nodup_cons]
      refine ⟨?_, htl⟩
      intro hbmem
      rcases List.mem_filterMap.1 hbmem with ⟨a, ha, hfa⟩
      have hda : hd = a :=
        hinj hd (List.mem_cons_self _ _) a (List.mem_cons_of_mem _ ha) b hfhd hfa
      exact hl'.1 (hda ▸ ha)

theorem gridWrites_indices_nodup (outer inner : ℕ) (f : ℕ → ℕ → Option (ℕ × Pix))
    (hinj : ∀ a b a' b' i p p', a < outer → b < inner → a' < outer → b' < inner →
      f a b = some (i, p) → f a' b' = some (i, p') → a = a' ∧ b = b') :
    ((gridWrites outer inner f).map Prod.fst).Nodup := by
  rw [gridWrites, List.map_filterMap]
  refine nodup_filterMap_mem _ _ ((List.nodup_range outer).product (List.nodup_range inner)) ?_
  rintro ⟨a, b⟩ hab ⟨a', b'⟩ hab' i hfab hfab'
  rw [List.pair_mem_product, List.mem_range, List.mem_range] at hab hab'
  rcases Option.map_eq_some'.1 hfab with ⟨⟨i1, p⟩, hf, he⟩
  rcases Option.map_eq_some'.1 hfab' with ⟨⟨i1', p'⟩, hf', he'⟩
  dsimp at he he'
  subst he
  subst he'
  obtain ⟨rfl, rfl⟩ := hinj a b a' b' i1' p p' hab.1 hab.2 hab'.1 hab'.2 hf hf'
  rfl

/-! ## Glyph compositing (`src/render/chunk.rs`, `put_char_in_image`)

The glyph bitmap is decoded by the external `unifont_bitmap` crate; the
embedding takes the decoded bitmap as parameters: `wide` (`bitmap.is_wide()`)
and `bits gy gx` (the `should_pixel` value at bitmap row `gy`, column `gx`).
The function writes the full `char_width × 16` cell — foreground where the
bitmap bit is set, background elsewhere — skipping any pixel outside the
canvas, and advances the cursor by 2 cells for a wide glyph, 1 otherwise. -/

def char_height : ℕ := 16

def charWidth (wide : Bool) : ℕ := if wide then 16 else 8

def glyphWrites (wide : Bool) (bits : ℕ → ℕ → Bool) (img_x img_y w h : ℕ)
    (background_color text_color : Pix) : List (ℕ × Pix) :=
  gridWrites char_height (charWidth wide) fun y x =>
    if img_x + x < w ∧ img_y + y < h then
      some ((img_y + y) * w + (img_x + x),
        if bits y x then text_color else background_color)
    else none

def put_char_in_image (wide : Bool) (bits : ℕ → ℕ → Bool) (img_x img_y : ℕ)
    (img : Canvas) (background_color text_color : Pix) (cur_line_x : ℕ) :
    Canvas × ℕ :=
  ({ img with
      data := applyWrites
        (glyphWrites wide bits img_x img_y img.w img.h background_color text_color)
        img.data },
   cur_line_x + if wide then 2 else 1)

theorem glyphWrites_indices_nodup' (wide : Bool) (bits : ℕ → ℕ → Bool)
    (img_x img_y w h : ℕ) (bg fg : Pix) :
    ((glyphWrites wide bits img_x img_y w h bg fg).map Prod.fst).Nodup := by
  refine gridWrites_indices_nodup _ _ _ ?_
  intro a b a' b' i p p' _ _ _ _ hf hf'
  by_cases h1 : img_x + b < w ∧ img_y + a < h
  · rw [if_pos h1] at hf
    by_cases h2 : img_x + b' < w ∧ img_y + a' < h
    · rw [if_pos h2] at hf'
      have hi : (img_y + a) * w + (img_x + b) = i := congrArg Prod.fst (Option.some.inj hf)
      have hi' : (img_y + a') * w + (img_x + b') = i := congrArg Prod.fst (Option.some.inj hf')
      obtain ⟨hy, hx⟩ := enc_inj w _ _ _ _ h1.1 h2.1 (hi.trans hi'.symm)
      exact ⟨by omega, by omega⟩
    · rw [if_neg h2] at hf'
      exact Option.noConfusion hf'
  · rw [if_neg h1] at hf
    exact Option.noConfusion hf

theorem enc_lt (w h x y : ℕ) (hx : x < w) (hy : y < h) : y * w + x < w * h := by
  calc y * w + x < y * w + w := by omega
  _ = (y + 1) * w := by ring
  _ ≤ h * w := Nat.mul_le_mul_right w hy
  _ = w * h := Nat.mul_comm h w

/-- C10: a glyph write is a total operation — it preserves the pixel-buffer
length (hence the `width * height * 3` canvas byte size), touches no pixel
outside the glyph cell, silently skips every cell pixel that falls outside
the canvas bounds, and still writes every in-bounds pixel of the cell:
foreground where the bitmap bit is set, background elsewhere.  The cursor
advance is unconditional. -/
theorem put_char_in_image_safe (wide : Bool) (bits : ℕ → ℕ → Bool) (img_x img_y : ℕ)
    (img : Canvas) (bg fg : Pix) (cur_line_x : ℕ)
    (hlen : img.data.length = img.w * img.h) :
    ((put_char_in_image wide bits img_x img_y img bg fg cur_line_x).1.data.length
        = img.w * img.h) ∧
    (∀ x y,
      (∀ gx gy, gx < charWidth wide → gy < char_height →
        x = img_x + gx → y = img_y + gy → False) →
      (put_char_in_image wide bits img_x img_y img bg fg cur_line_x).1.getPixel x y
        = img.getPixel x y) ∧
    (∀ gx gy, gx < charWidth wide → gy < char_height →
      img_x + gx < img.w → img_y + gy < img.h →
      (put_char_in_image wide bits img_x img_y img bg fg cur_line_x).1.getPixel
          (img_x + gx) (img_y + gy) = some (if bits gy gx then fg else bg)) ∧
    (put_char_in_image wide bits img_x img_y img bg fg cur_line_x).2
        = cur_line_x + (if wide then 2 else 1) := by
  refine ⟨?_, ?_, ?_, rfl⟩
  · rw [put_char_in_image]
    simpa [applyWrites_length] using hlen
  · intro x y hout
    rw [put_char_in_image, Canvas.getPixel, Canvas.getPixel]
    by_cases hin : x < img.w ∧ y < img.h
    · rw [if_pos hin, if_pos hin]
      refine applyWrites_get_not_mem _ _ _ ?_
      intro hmem
      rcases mem_map_fst_gridWrites _ _ _ _ hmem with ⟨gy, hgy, gx, hgx, p, hf⟩
      by_cases hb : img_x + gx < img.w ∧ img_y + gy < img.h
      · rw [if_pos hb] at hf
        have hi : (img_y + gy) * img.w + (img_x + gx) = y * img.w + x :=
          congrArg Prod.fst (Option.some.inj hf)
        obtain ⟨hy', hx'⟩ := enc_inj img.w _ _ _ _ hb.1 hin.1 hi
        exact hout gx gy hgx hgy hx'.symm hy'.symm
      · rw [if_neg hb] at hf
        exact Option.noConfusion hf
    · rw [if_neg hin, if_neg hin]
  · intro gx gy hgx hgy hxw hyh
    rw [put_char_in_image, Canvas.getPixel]
    rw [if_pos ⟨hxw, hyh⟩]
    refine applyWrites_get_of_nodup _ _ _ _
      (glyphWrites_indices_nodup' wide bits img_x img_y img.w img.h bg fg) ?_ ?_
    · exact (mem_gridWrites _ _ _ _ _).2
        ⟨gy, hgy, gx, hgx, by rw [if_pos ⟨hxw, hyh⟩]⟩
    · rw [hlen]
      exact enc_lt img.w img.h _ _ hxw hyh

theorem put_char_in_image_safe_witness :
    ((put_char_in_image false (fun _ _ => true) 1 1 ⟨2, 2, List.replicate 4 ⟨9, 9, 9⟩⟩
        ⟨0, 0, 0⟩ ⟨7, 7, 7⟩ 0).1.data.length = 2 * 2) ∧
    (put_char_in_image false (fun _ _ => true) 1 1 ⟨2, 2, List.replicate 4 ⟨9, 9, 9⟩⟩
        ⟨0, 0, 0⟩ ⟨7, 7, 7⟩ 0).1.getPixel (1 + 0) (1 + 0)
      = some (if (fun _ _ => true) 0 0 then (⟨7, 7, 7⟩ : Pix) else ⟨0, 0, 0⟩) := by
  have h := put_char_in_image_safe false (fun _ _ => true) 1 1
    ⟨2, 2, List.replicate 4 ⟨9, 9, 9⟩⟩ ⟨0, 0, 0⟩ ⟨7, 7, 7⟩ 0 (by decide)
  exact ⟨h.1, h.2.2.1 0 0 (by decide) (by decide) (by decide) (by decide)⟩

/-- C9 counterexample: with `line_height = 2`, a glyph write for one line
lands in other lines' cell regions.  On a one-column canvas of 8 lines of
height 2 (8 × 16 pixels, `lines_per_column = 8`), the glyph write for line 0
(anchored at its cell top `img_y = 0`) paints pixel `(0, 15)` — a pixel
inside the cell rectangle of line 7 and outside the rectangle of line 0 —
because `put_char_in_image` always writes 16 bitmap rows. -/
theorem glyph_write_crosses_lines_cex :
    (put_char_in_image false (fun _ _ => true) 0 0
        ⟨8, 16, List.replicate 128 ⟨9, 9, 9⟩⟩ ⟨2, 2, 2⟩ ⟨1, 1, 1⟩ 0).1.getPixel 0 15
      = some ⟨1, 1, 1⟩ ∧
    Canvas.getPixel ⟨8, 16, List.replicate 128 ⟨9, 9, 9⟩⟩ 0 15 = some ⟨9, 9, 9⟩ ∧
    inRect 8 8 2 7 0 15 ∧
    ¬ inRect 8 8 2 0 0 15 := by
  refine ⟨by decide, by decide, by decide, by decide⟩

/-! ## Parallel orchestration (`src/render/function.rs`, lines 279-401)

A worker's answer on the result channel is `(sub_img, out, num_content_lines,
lines_so_far)`; `FileRender` bundles it.  The orchestrator drains results in
arrival order, copy-merges each private buffer into the shared canvas at the
position computed from the file's cumulative line offset, overwrites the
`background` accumulator with the file outcome, and checks the cancellation
flag at the end of each iteration.  After the drain, the bottom-right
trailing cells are filled with the accumulated background (black when it is
`none`). -/

/-- Black, the `Rgb([0, 0, 0])` fallback of the trailing fill. -/
def blackPix : Pix := ⟨0, 0, 0⟩

structure FileRender where
  buf : Canvas
  background : Option Pix
  longest : ℕ
  lines : ℕ
  offset : ℕ
deriving DecidableEq, Repr

/-- The copy-merge writes of one file result (function.rs 360-375): for each
file line, for each `x`, for each `height`, copy the private-buffer pixel to
the shared canvas at `calc_offsets ((lines_so_far + line) % total_line_count)`
plus the in-cell offset.  (`sub_img.get_pixel` panics out of bounds in the
source; the model's `getD blackPix` is never exercised for the well-formed
buffers the workers build.) -/
def mergeWrites (total_line_count lines_per_column column_width line_height w : ℕ)
    (r : FileRender) : List (ℕ × Pix) :=
  (List.range r.lines).flatMap fun line =>
    gridWrites column_width line_height fun x hh =>
      some
        ((((r.offset + line) % total_line_count) % lines_per_column * line_height + hh) * w
            + (((r.offset + line) % total_line_count) / lines_per_column * column_width + x),
         (r.buf.getPixel x (line * line_height + hh)).getD blackPix)

def mergeFile (total_line_count lines_per_column column_width line_height : ℕ)
    (c : Canvas) (r : FileRender) : Canvas :=
  { c with
    data := applyWrites
      (mergeWrites total_line_count lines_per_column column_width line_height c.w r)
      c.data }

/-- The orchestrator's mutable state while draining results. -/
structure DrainState where
  img : Canvas
  background : Option Pix
  longest : ℕ
  line_num : ℕ
deriving DecidableEq, Repr

/-- One drain iteration (function.rs 356-379): fold the longest-line count,
overwrite the background with the arrived outcome, copy-merge the private
buffer, and advance `line_num`. -/
def mergeStep (total_line_count lines_per_column column_width line_height : ℕ)
    (st : DrainState) (r : FileRender) : DrainState :=
  { img := mergeFile total_line_count lines_per_column column_width line_height st.img r
    background := r.background
    longest := max st.longest r.longest
    line_num := st.line_num + r.lines }

/-- The result drain loop.  The cancellation flag is sampled once per
iteration, *after* the copy-merge (function.rs 380-382); `flag i` is the
value the `i`-th load observes.  The returned `Bool` is `true` when the loop
bailed with the cancellation error; the state is the shared canvas (and
accumulators) at that point — on error the caller discards it. -/
def drainResults (total_line_count lines_per_column column_width line_height : ℕ)
    (flag : ℕ → Bool) : ℕ → DrainState → List FileRender → Bool × DrainState
  | _, st, [] => (false, st)
  | i, st, r :: rs =>
    let st' := mergeStep total_line_count lines_per_column column_width line_height st r
    if flag i then (true, st')
    else drainResults total_line_count lines_per_column column_width line_height flag
      (i + 1) st' rs

/-- The dispatch loop of the parallel branch (function.rs 346-353): *every*
file is sent to the bounded worker channel together with its cumulative line
offset and index; the loop body contains no cancellation check — the flag is
not even an input of this computation. -/
def dispatchMessages : ℕ → ℕ → List ℕ → List (ℕ × ℕ × ℕ)
  | _, _, [] => []
  | lines_so_far, file_index, num_content_lines :: rest =>
    (num_content_lines, lines_so_far, file_index) ::
      dispatchMessages (lines_so_far + num_content_lines) (file_index + 1) rest

/-- The writes of one iteration of the bottom-right fill (function.rs
390-400): the whole `column_width × line_height` cell of global line
`line_num`, painted with the accumulated background or black. -/
def fillCellWrites (lines_per_column column_width line_height w : ℕ)
    (background : Option Pix) (line_num : ℕ) : List (ℕ × Pix) :=
  gridWrites column_width line_height fun cur_line_x y_pos =>
    some
      ((line_num % lines_per_column * line_height + y_pos) * w
          + (line_num / lines_per_column * column_width + cur_line_x),
       background.getD blackPix)

/-- The `while line_num < lines_per_column * required_columns` fill loop,
with the iteration count made explicit (the loop advances `line_num` by one
per iteration, so it runs exactly `lines_per_column * required_columns -
line_num` times). -/
def fillTrailingGo (lines_per_column column_width line_height : ℕ)
    (background : Option Pix) : ℕ → ℕ → Canvas → Canvas
  | 0, _, c => c
  | fuel + 1, line_num, c =>
    fillTrailingGo lines_per_column column_width line_height background fuel
      (line_num + 1)
      { c with
        data := applyWrites
          (fillCellWrites lines_per_column column_width line_height c.w background
            line_num)
          c.data }

def fillTrailing (lines_per_column required_columns column_width line_height : ℕ)
    (background : Option Pix) (line_num : ℕ) (c : Canvas) : Canvas :=
  fillTrailingGo lines_per_column column_width line_height background
    (lines_per_column * required_columns - line_num) line_num c

/-- The parallel branch composed with the bottom-right fill: drain all
arrived results into the canvas, then — unless cancelled — fill the trailing
cells.  `none` models the cancellation error return. -/
def parallelRender (total_line_count lines_per_column required_columns column_width
    line_height : ℕ) (flag : ℕ → Bool) (results : List FileRender) (c0 : Canvas) :
    Option Canvas :=
  match drainResults total_line_count lines_per_column column_width line_height flag 0
      ⟨c0, none, 0, 0⟩ results with
  | (true, _) => none
  | (false, st) =>
    some (fillTrailing lines_per_column required_columns column_width line_height
      st.background st.line_num st.img)

/-- The sequential accumulation of the per-file outcome background
(function.rs line 275, and line 358 in the parallel drain): each processed
file *overwrites* the accumulator with its own outcome, `none` included. -/
def seqBackgroundFold (outs : List (Option Pix)) : Option Pix :=
  outs.foldl (fun _ o => o) none

/-- C2 counterexample: the final canvas depends on the order in which worker
results arrive.  Two files (1 and 2 lines, backgrounds red and blue) on a
`lines_per_column = 2`, `required_columns = 2`, `column_width = line_height
= 1` layout leave one trailing cell; the drain loop overwrites `background`
with each arrived outcome, so the trailing fill takes the color of whichever
file arrived *last*, and the two arrival orders yield different canvases
(they also differ from the sequential result for at least one order). -/
theorem parallel_arrival_order_cex :
    parallelRender 3 2 2 1 1 (fun _ => false)
        [⟨⟨1, 1, [⟨5, 5, 5⟩]⟩, some ⟨255, 0, 0⟩, 0, 1, 0⟩,
         ⟨⟨1, 2, [⟨6, 6, 6⟩, ⟨7, 7, 7⟩]⟩, some ⟨0, 0, 255⟩, 0, 2, 1⟩]
        ⟨2, 2, List.replicate 4 ⟨0, 0, 0⟩⟩
      ≠
    parallelRender 3 2 2 1 1 (fun _ => false)
        [⟨⟨1, 2, [⟨6, 6, 6⟩, ⟨7, 7, 7⟩]⟩, some ⟨0, 0, 255⟩, 0, 2, 1⟩,
         ⟨⟨1, 1, [⟨5, 5, 5⟩]⟩, some ⟨255, 0, 0⟩, 0, 1, 0⟩]
        ⟨2, 2, List.replicate 4 ⟨0, 0, 0⟩⟩ := by
  decide

/-- C7 counterexample: with the cancellation flag permanently set, the
dispatch loop still enqueues every file (it contains no flag check at all —
`dispatchMessages` does not even take the flag), and the drain loop performs
one full copy-merge *before* its first flag check fires: the canvas has
already been mutated and `line_num` already advanced when the cancellation
error is raised. -/
theorem cancellation_checkpoints_cex :
    (dispatchMessages 0 0 [1, 2]).length = 2 ∧
    (drainResults 3 2 1 1 (fun _ => true) 0
        ⟨⟨2, 2, List.replicate 4 ⟨0, 0, 0⟩⟩, none, 0, 0⟩
        [⟨⟨1, 1, [⟨5, 5, 5⟩]⟩, some ⟨255, 0, 0⟩, 0, 1, 0⟩,
         ⟨⟨1, 2, [⟨6, 6, 6⟩, ⟨7, 7, 7⟩]⟩, some ⟨0, 0, 255⟩, 0, 2, 1⟩]).1 = true ∧
    (drainResults 3 2 1 1 (fun _ => true) 0
        ⟨⟨2, 2, List.replicate 4 ⟨0, 0, 0⟩⟩, none, 0, 0⟩
        [⟨⟨1, 1, [⟨5, 5, 5⟩]⟩, some ⟨255, 0, 0⟩, 0, 1, 0⟩,
         ⟨⟨1, 2, [⟨6, 6, 6⟩, ⟨7, 7, 7⟩]⟩, some ⟨0, 0, 255⟩, 0, 2, 1⟩]).2.line_num = 1 ∧
    (drainResults 3 2 1 1 (fun _ => true) 0
        ⟨⟨2, 2, List.replicate 4 ⟨0, 0, 0⟩⟩, none, 0, 0⟩
        [⟨⟨1, 1, [⟨5, 5, 5⟩]⟩, some ⟨255, 0, 0⟩, 0, 1, 0⟩,
         ⟨⟨1, 2, [⟨6, 6, 6⟩, ⟨7, 7, 7⟩]⟩, some ⟨0, 0, 255⟩, 0, 2, 1⟩]).2.img.getPixel 0 0
      = some ⟨5, 5, 5⟩ := by
  refine ⟨rfl, by decide, by decide, by decide⟩

/-- C8 counterexample: the accumulator holds the *last outcome's*
background, not the last *derived* one.  A first file derives red, a second
(empty, zero-line) file yields `none` and overwrites it; the trailing fill
then paints black even though a background color was derived during the
render. -/
theorem trailing_fill_last_seen_cex :
    seqBackgroundFold [some ⟨255, 0, 0⟩, none] = none ∧
    (seqBackgroundFold [some ⟨255, 0, 0⟩, none]).getD blackPix = blackPix ∧
    blackPix ≠ ⟨255, 0, 0⟩ ∧
    (fillTrailing 2 2 1 1 (seqBackgroundFold [some ⟨255, 0, 0⟩, none]) 3
        ⟨2, 2, List.replicate 4 ⟨9, 9, 9⟩⟩).getPixel 1 1 = some blackPix := by
  refine ⟨rfl, rfl, by decide, by decide⟩

theorem mergeWrites_index_mem (total lpc cw lh w : ℕ) (r : FileRender) (i : ℕ)
    (hi : i ∈ (mergeWrites total lpc cw lh w r).map Prod.fst) :
    ∃ line, line < r.lines ∧ ∃ x, x < cw ∧ ∃ hh, hh < lh ∧
      i = ((r.offset + line) % total % lpc * lh + hh) * w
          + ((r.offset + line) % total / lpc * cw + x) := by
  rw [mergeWrites, List.map_flatMap] at hi
  rcases List.mem_flatMap.1 hi with ⟨line, hline, hmem⟩
  rw [List.mem_range] at hline
  rcases mem_map_fst_gridWrites _ _ _ _ hmem with ⟨x, hx, hh, hhh, p, hf⟩
  exact ⟨line, hline, x, hx, hh, hhh, (congrArg Prod.fst (Option.some.inj hf)).symm⟩

/-- C9 amended: the copy-merge of a file writes only inside the union of the
cell rectangles of that file's global lines, each rectangle being the
`column_width × line_height` block at `calc_offsets` of the line's
cumulative offset — so the merged pixels are positioned solely by
`lines_so_far`, and distinct global lines (hence distinct files and
columns) have pairwise disjoint rectangles.  The claim's stronger wording
fails at the glyph level: `put_char_in_image` writes 16 bitmap rows per
line, spilling into following lines' cell regions whenever `line_height <
16` (counterexample), and a file wrapping a column boundary occupies two
partial column strips rather than one contiguous rectangle. -/
theorem copy_merge_confined (total lpc cw lh rc : ℕ) (hcw : 0 < cw) (hlh : 0 < lh)
    (hlpc : 0 < lpc) :
    (∀ g g' x y, g ≠ g' → inRect lpc cw lh g x y → inRect lpc cw lh g' x y → False) ∧
    (∀ (c : Canvas) (r : FileRender) x y,
      c.w = rc * cw →
      r.offset + r.lines ≤ total → total ≤ lpc * rc →
      (∀ line, line < r.lines → ¬ inRect lpc cw lh (r.offset + line) x y) →
      (mergeFile total lpc cw lh c r).getPixel x y = c.getPixel x y) := by
  constructor
  · exact fun g g' x y hne h1 h2 => inRect_disjoint lpc cw lh g g' x y hcw hlh hne h1 h2
  · intro c r x y hw hr htot hnone
    rw [mergeFile, Canvas.getPixel, Canvas.getPixel]
    by_cases hin : x < c.w ∧ y < c.h
    · rw [if_pos hin, if_pos hin]
      refine applyWrites_get_not_mem _ _ _ ?_
      intro hmem
      rcases mergeWrites_index_mem total lpc cw lh c.w r _ hmem
        with ⟨line, hline, x', hx', hh, hhh, hi⟩
      have hg : (r.offset + line) % total = r.offset + line :=
        Nat.mod_eq_of_lt (by omega)
      rw [hg] at hi
      have hcol : (r.offset + line) / lpc < rc := by
        rw [Nat.div_lt_iff_lt_mul hlpc, Nat.mul_comm rc lpc]
        omega
      have hxw : (r.offset + line) / lpc * cw + x' < c.w := by
        rw [hw, Nat.mul_comm rc cw]
        exact enc_lt cw rc x' _ hx' hcol
      obtain ⟨hy', hx''⟩ := enc_inj c.w _ _ _ _ hxw hin.1 hi.symm
      exact hnone line hline (by rw [← hx'', ← hy']; exact inRect_of_cell _ _ _ _ _ _ hx' hhh)
    · rw [if_neg hin, if_neg hin]

theorem copy_merge_confined_witness :
    (mergeFile 3 2 1 1 ⟨2, 2, List.replicate 4 ⟨0, 0, 0⟩⟩
        ⟨⟨1, 1, [⟨5, 5, 5⟩]⟩, some ⟨255, 0, 0⟩, 0, 1, 0⟩).getPixel 1 1
      = Canvas.getPixel ⟨2, 2, List.replicate 4 ⟨0, 0, 0⟩⟩ 1 1 := by
  have h := copy_merge_confined 3 2 1 1 2 (by norm_num) (by norm_num) (by norm_num)
  exact h.2 ⟨2, 2, List.replicate 4 ⟨0, 0, 0⟩⟩ ⟨⟨1, 1, [⟨5, 5, 5⟩]⟩, some ⟨255, 0, 0⟩, 0, 1, 0⟩
    1 1 (by norm_num) (by norm_num) (by norm_num)
    (by intro line hline; interval_cases line; decide)

theorem dispatchMessages_length (ofs idx : ℕ) (files : List ℕ) :
    (dispatchMessages ofs idx files).length = files.length := by
  induction files generalizing ofs idx with
  | nil => rfl
  | cons hd tl ih =>
    simp only [dispatchMessages, List.length_cons]
    rw [ih]

theorem drainResults_no_cancel (total lpc cw lh : ℕ) (flag : ℕ → Bool) :
    ∀ (rs : List FileRender) (i0 : ℕ) (st : DrainState),
      (∀ j, j < rs.length → flag (i0 + j) = false) →
      drainResults total lpc cw lh flag i0 st rs
        = (false, rs.foldl (mergeStep total lpc cw lh) st) := by
  intro rs
  induction rs with
  | nil => intro i0 st _; rfl
  | cons r rest ih =>
    intro i0 st h
    have h0 : flag i0 = false := by simpa using h 0 (by simp)
    simp only [drainResults, h0]
    rw [List.foldl_cons]
    exact ih (i0 + 1) _ (fun j hj => by
      rw [show i0 + 1 + j = i0 + (j + 1) by omega]
      exact h (j + 1) (by simp only [List.length_cons]; omega))

theorem drainResults_cancel (total lpc cw lh : ℕ) (flag : ℕ → Bool) :
    ∀ (rs : List FileRender) (i0 : ℕ) (st : DrainState) (k : ℕ),
      k < rs.length → flag (i0 + k) = true → (∀ j, j < k → flag (i0 + j) = false) →
      drainResults total lpc cw lh flag i0 st rs
        = (true, (rs.take (k + 1)).foldl (mergeStep total lpc cw lh) st) := by
  intro rs
  induction rs with
  | nil => intro i0 st k hk; simp at hk
  | cons r rest ih =>
    intro i0 st k hk hflag hprev
    cases k with
    | zero =>
      have h0 : flag i0 = true := by simpa using hflag
      simp only [drainResults, h0]
      simp
    | succ k' =>
      have h0 : flag i0 = false := hprev 0 (Nat.succ_pos k')
      simp only [drainResults, h0]
      rw [if_neg (by simp)]
      rw [ih (i0 + 1) _ k' (by simpa using hk)
        (by rw [show i0 + 1 + k' = i0 + (k' + 1) by omega]; exact hflag)
        (fun j hj => by
          rw [show i0 + 1 + j = i0 + (j + 1) by omega]
          exact hprev (j + 1) (by omega))]
      rw [List.take_succ_cons, List.foldl_cons]

/-- C7 amended: in parallel mode the cancellation flag is never consulted by
the dispatch loop — every file is enqueued with its cumulative line offset,
and `dispatchMessages` does not even take the flag as an input — and it is
checked once per drained result, *after* that result's copy-merge: if the
flag is first observed set at the `k`-th result, exactly the first `k + 1`
results have been copy-merged when the drain bails with the cancellation
error; if it is never observed set, every result is merged and no
cancellation error is raised. -/
theorem cancellation_after_each_merge (total lpc cw lh : ℕ) (flag : ℕ → Bool)
    (rs : List FileRender) (st : DrainState) :
    (∀ ofs idx files, (dispatchMessages ofs idx files).length = files.length) ∧
    ((∀ j, j < rs.length → flag j = false) →
      drainResults total lpc cw lh flag 0 st rs
        = (false, rs.foldl (mergeStep total lpc cw lh) st)) ∧
    (∀ k, k < rs.length → flag k = true → (∀ j, j < k → flag j = false) →
      drainResults total lpc cw lh flag 0 st rs
        = (true, (rs.take (k + 1)).foldl (mergeStep total lpc cw lh) st)) := by
  refine ⟨dispatchMessages_length, ?_, ?_⟩
  · intro h
    exact drainResults_no_cancel total lpc cw lh flag rs 0 st
      (fun j hj => by simpa using h j hj)
  · intro k hk hflag hprev
    exact drainResults_cancel total lpc cw lh flag rs 0 st k hk (by simpa using hflag)
      (fun j hj => by simpa using hprev j hj)

theorem cancellation_after_each_merge_witness :
    drainResults 3 2 1 1 (fun i => decide (1 ≤ i)) 0
        ⟨⟨2, 2, List.replicate 4 ⟨0, 0, 0⟩⟩, none, 0, 0⟩
        [⟨⟨1, 1, [⟨5, 5, 5⟩]⟩, some ⟨255, 0, 0⟩, 0, 1, 0⟩,
         ⟨⟨1, 2, [⟨6, 6, 6⟩, ⟨7, 7, 7⟩]⟩, some ⟨0, 0, 255⟩, 0, 2, 1⟩,
         ⟨⟨1, 1, [⟨8, 8, 8⟩]⟩, none, 0, 1, 3⟩]
      = (true,
        ([⟨⟨1, 1, [⟨5, 5, 5⟩]⟩, some ⟨255, 0, 0⟩, 0, 1, 0⟩,
          ⟨⟨1, 2, [⟨6, 6, 6⟩, ⟨7, 7, 7⟩]⟩, some ⟨0, 0, 255⟩, 0, 2, 1⟩,
          ⟨⟨1, 1, [⟨8, 8, 8⟩]⟩, none, 0, 1, 3⟩].take (1 + 1)).foldl
          (mergeStep 3 2 1 1) ⟨⟨2, 2, List.replicate 4 ⟨0, 0, 0⟩⟩, none, 0, 0⟩) := by
  have h := cancellation_after_each_merge 3 2 1 1 (fun i => decide (1 ≤ i))
    [⟨⟨1, 1, [⟨5, 5, 5⟩]⟩, some ⟨255, 0, 0⟩, 0, 1, 0⟩,
     ⟨⟨1, 2, [⟨6, 6, 6⟩, ⟨7, 7, 7⟩]⟩, some ⟨0, 0, 255⟩, 0, 2, 1⟩,
     ⟨⟨1, 1, [⟨8, 8, 8⟩]⟩, none, 0, 1, 3⟩]
    ⟨⟨2, 2, List.replicate 4 ⟨0, 0, 0⟩⟩, none, 0, 0⟩
  exact h.2.2 1 (by norm_num) (by norm_num) (by intro j hj; interval_cases j; norm_num)

theorem fillCellWrites_index_mem (lpc cw lh w : ℕ) (bg : Option Pix) (g i : ℕ)
    (hi : i ∈ (fillCellWrites lpc cw lh w bg g).map Prod.fst) :
    ∃ x, x < cw ∧ ∃ hh, hh < lh ∧
      i = (g % lpc * lh + hh) * w + (g / lpc * cw + x) := by
  rcases mem_map_fst_gridWrites _ _ _ _ hi with ⟨x, hx, hh, hhh, p, hf⟩
  exact ⟨x, hx, hh, hhh, (congrArg Prod.fst (Option.some.inj hf)).symm⟩

theorem fillCellWrites_indices_nodup (lpc cw lh w : ℕ) (bg : Option Pix) (g : ℕ)
    (hcell : g / lpc * cw + cw ≤ w) :
    ((fillCellWrites lpc cw lh w bg g).map Prod.fst).Nodup := by
  refine gridWrites_indices_nodup _ _ _ ?_
  intro a b a' b' i p p' ha _ ha' _ hf hf'
  have h1 : (g % lpc * lh + b) * w + (g / lpc * cw + a) = i :=
    congrArg Prod.fst (Option.some.inj hf)
  have h2 : (g % lpc * lh + b') * w + (g / lpc * cw + a') = i :=
    congrArg Prod.fst (Option.some.inj hf')
  obtain ⟨hy, hx⟩ := enc_inj w _ _ _ _ (by omega) (by omega) (h1.trans h2.symm)
  exact ⟨by omega, by omega⟩

theorem fillTrailingGo_shape (lpc cw lh : ℕ) (bg : Option Pix) :
    ∀ fuel ln (c : Canvas),
      (fillTrailingGo lpc cw lh bg fuel ln c).w = c.w ∧
      (fillTrailingGo lpc cw lh bg fuel ln c).h = c.h ∧
      (fillTrailingGo lpc cw lh bg fuel ln c).data.length = c.data.length := by
  intro fuel
  induction fuel with
  | zero => exact fun ln c => ⟨rfl, rfl, rfl⟩
  | succ f ih =>
    intro ln c
    simp only [fillTrailingGo]
    refine ⟨(ih _ _).1, (ih _ _).2.1, ?_⟩
    rw [(ih _ _).2.2]
    exact applyWrites_length _ _

theorem fillTrailingGo_preserve (lpc cw lh rc : ℕ) (bg : Option Pix) (x y : ℕ)
    (hcw : 0 < cw) (hlpc : 0 < lpc) :
    ∀ fuel ln (c : Canvas), c.w = rc * cw → ln + fuel ≤ lpc * rc →
      (∀ g, ln ≤ g → g < ln + fuel → ¬ inRect lpc cw lh g x y) →
      (fillTrailingGo lpc cw lh bg fuel ln c).getPixel x y = c.getPixel x y := by
  intro fuel
  induction fuel with
  | zero => intro ln c _ _ _; rfl
  | succ f ih =>
    intro ln c hw hbound hnone
    simp only [fillTrailingGo]
    have hstep := ih (ln + 1)
      ({ c with data := applyWrites (fillCellWrites lpc cw lh c.w bg ln) c.data })
      hw (by omega) (fun g hg1 hg2 => hnone g (by omega) (by omega))
    rw [hstep]
    rw [Canvas.getPixel, Canvas.getPixel]
    by_cases hin : x < c.w ∧ y < c.h
    · rw [if_pos hin, if_pos hin]
      refine applyWrites_get_not_mem _ _ _ ?_
      intro hmem
      rcases fillCellWrites_index_mem lpc cw lh c.w bg ln _ hmem
        with ⟨x', hx', hh, hhh, hi⟩
      have hcol : ln / lpc < rc := by
        rw [Nat.div_lt_iff_lt_mul hlpc, Nat.mul_comm rc lpc]
        omega
      have hxw : ln / lpc * cw + x' < c.w := by
        rw [hw, Nat.mul_comm rc cw]
        exact enc_lt cw rc x' _ hx' hcol
      obtain ⟨hy', hx''⟩ := enc_inj c.w _ _ _ _ hxw hin.1 hi.symm
      exact hnone ln (le_refl ln) (by omega)
        (by rw [← hx'', ← hy']; exact inRect_of_cell _ _ _ _ _ _ hx' hhh)
    · rw [if_neg hin, if_neg hin]

theorem fillTrailingGo_write (lpc cw lh rc : ℕ) (bg : Option Pix) (x y : ℕ)
    (hcw : 0 < cw) (hlh : 0 < lh) (hlpc : 0 < lpc) :
    ∀ fuel ln (c : Canvas) g, c.w = rc * cw → c.h = lpc * lh →
      c.data.length = c.w * c.h →
      ln + fuel ≤ lpc * rc → ln ≤ g → g < ln + fuel →
      inRect lpc cw lh g x y →
      (fillTrailingGo lpc cw lh bg fuel ln c).getPixel x y
        = some (bg.getD blackPix) := by
  intro fuel
  induction fuel with
  | zero => intro ln c g _ _ _ _ _ _ _; omega
  | succ f ih =>
    intro ln c g hw hhh hlen hbound hg1 hg2 hrect
    simp only [fillTrailingGo]
    rcases eq_or_lt_of_le hg1 with rfl | hlt
    · -- this iteration paints the cell of `ln`
      obtain ⟨hr1, hr2, hr3, hr4⟩ := hrect
      have hcol : ln / lpc < rc := by
        rw [Nat.div_lt_iff_lt_mul hlpc, Nat.mul_comm rc lpc]
        omega
      have hxw : x < c.w := by
        rw [hw, Nat.mul_comm rc cw]
        calc x < ln / lpc * cw + cw := hr2
        _ = (ln / lpc + 1) * cw := by ring
        _ ≤ rc * cw := Nat.mul_le_mul_right cw hcol
        _ = cw * rc := Nat.mul_comm rc cw
      have hyh : y < c.h := by
        have hrow : ln % lpc < lpc := Nat.mod_lt ln hlpc
        rw [hhh]
        calc y < ln % lpc * lh + lh := hr4
        _ = (ln % lpc + 1) * lh := by ring
        _ ≤ lpc * lh := Nat.mul_le_mul_right lh hrow
      rw [fillTrailingGo_preserve lpc cw lh rc bg x y hcw hlpc f (ln + 1)
        ({ c with data := applyWrites (fillCellWrites lpc cw lh c.w bg ln) c.data })
        hw (by omega)
        (fun g' hga hgb hr =>
          inRect_disjoint lpc cw lh ln g' x y hcw hlh (by omega)
            ⟨hr1, hr2, hr3, hr4⟩ hr)]
      rw [Canvas.getPixel]
      rw [if_pos ⟨hxw, hyh⟩]
      have hcell : ln / lpc * cw + cw ≤ c.w := by
        rw [hw]
        calc ln / lpc * cw + cw = (ln / lpc + 1) * cw := by ring
        _ ≤ rc * cw := Nat.mul_le_mul_right cw hcol
      refine applyWrites_get_of_nodup _ _ _ _
        (fillCellWrites_indices_nodup lpc cw lh c.w bg ln hcell) ?_ ?_
      · refine (mem_gridWrites _ _ _ _ _).2
          ⟨x - ln / lpc * cw, by omega, y - ln % lpc * lh, by omega, ?_⟩
        have hx0 : ln / lpc * cw + (x - ln / lpc * cw) = x := by omega
        have hy0 : ln % lpc * lh + (y - ln % lpc * lh) = y := by omega
        rw [hx0, hy0]
      · rw [hlen]
        exact enc_lt c.w c.h x y hxw hyh
    · -- the cell of `g` is painted by a later iteration
      exact ih (ln + 1) _ g hw hhh
        (by rw [applyWrites_length]; exact hlen) (by omega) (by omega) (by omega) hrect

/-- C8 amended: after the drain, the post-pass paints every canvas cell
beyond the last rendered line with the *last processed outcome's*
background — black when that outcome carries `none` — and leaves every
other pixel untouched.  The accumulator is overwritten by each file's
outcome, `none` included (`seqBackgroundFold (outs ++ [o]) = o`), so the
fill can be black even when an earlier file derived a background color;
"black only if no background was ever derived" fails (counterexample). -/
theorem trailing_fill_color (lpc rc cw lh : ℕ) (bg : Option Pix) (ln : ℕ) (c : Canvas)
    (hcw : 0 < cw) (hlh : 0 < lh) (hlpc : 0 < lpc)
    (hw : c.w = rc * cw) (hch : c.h = lpc * lh) (hlen : c.data.length = c.w * c.h) :
    (∀ g x y, ln ≤ g → g < lpc * rc → inRect lpc cw lh g x y →
      (fillTrailing lpc rc cw lh bg ln c).getPixel x y = some (bg.getD blackPix)) ∧
    (∀ x y, (∀ g, ln ≤ g → g < lpc * rc → ¬ inRect lpc cw lh g x y) →
      (fillTrailing lpc rc cw lh bg ln c).getPixel x y = c.getPixel x y) ∧
    (∀ (outs : List (Option Pix)) (o : Option Pix),
      seqBackgroundFold (outs ++ [o]) = o) := by
  refine ⟨?_, ?_, ?_⟩
  · intro g x y hg1 hg2 hrect
    rw [fillTrailing]
    exact fillTrailingGo_write lpc cw lh rc bg x y hcw hlh hlpc _ ln c g hw hch hlen
      (by omega) hg1 (by omega) hrect
  · intro x y hnone
    by_cases hln : ln ≤ lpc * rc
    · rw [fillTrailing]
      exact fillTrailingGo_preserve lpc cw lh rc bg x y hcw hlpc _ ln c hw (by omega)
        (fun g hg1 hg2 => hnone g hg1 (by omega))
    · have h0 : lpc * rc - ln = 0 := by omega
      rw [fillTrailing, h0]
      rfl
  · intro outs o
    rw [seqBackgroundFold, List.foldl_append]
    rfl

theorem trailing_fill_color_witness :
    (fillTrailing 2 2 1 1 (some ⟨3, 3, 3⟩) 3 ⟨2, 2, List.replicate 4 ⟨9, 9, 9⟩⟩).getPixel 1 1
      = some ((some (⟨3, 3, 3⟩ : Pix)).getD blackPix) ∧
    (fillTrailing 2 2 1 1 (some ⟨3, 3, 3⟩) 3 ⟨2, 2, List.replicate 4 ⟨9, 9, 9⟩⟩).getPixel 0 0
      = Canvas.getPixel ⟨2, 2, List.replicate 4 ⟨9, 9, 9⟩⟩ 0 0 := by
  have h := trailing_fill_color 2 2 1 1 (some ⟨3, 3, 3⟩) 3 ⟨2, 2, List.replicate 4 ⟨9, 9, 9⟩⟩
    (by norm_num) (by norm_num) (by norm_num) (by norm_num) (by norm_num) (by norm_num)
  refine ⟨h.1 3 1 1 (by norm_num) (by norm_num) (by decide), ?_⟩
  refine h.2.1 0 0 ?_
  intro g hg1 hg2
  interval_cases g
  decide

theorem mergeWrites_indices_disjoint (total lpc cw lh rc w : ℕ)
    (hcw : 0 < cw) (hlh : 0 < lh) (hlpc : 0 < lpc) (hw : w = rc * cw)
    (r1 r2 : FileRender)
    (h1 : r1.offset + r1.lines ≤ total) (h2 : r2.offset + r2.lines ≤ total)
    (htot : total ≤ lpc * rc)
    (hdisj : r1.offset + r1.lines ≤ r2.offset ∨ r2.offset + r2.lines ≤ r1.offset) :
    ∀ i ∈ (mergeWrites total lpc cw lh w r1).map Prod.fst,
      i ∉ (mergeWrites total lpc cw lh w r2).map Prod.fst := by
  intro i hi1 hi2
  rcases mergeWrites_index_mem total lpc cw lh w r1 i hi1
    with ⟨l1, hl1, x1, hx1, hh1, hhh1, he1⟩
  rcases mergeWrites_index_mem total lpc cw lh w r2 i hi2
    with ⟨l2, hl2, x2, hx2, hh2, hhh2, he2⟩
  rw [Nat.mod_eq_of_lt (show r1.offset + l1 < total by omega)] at he1
  rw [Nat.mod_eq_of_lt (show r2.offset + l2 < total by omega)] at he2
  have hcol1 : (r1.offset + l1) / lpc < rc := by
    rw [Nat.div_lt_iff_lt_mul hlpc, Nat.mul_comm rc lpc]
    omega
  have hcol2 : (r2.offset + l2) / lpc < rc := by
    rw [Nat.div_lt_iff_lt_mul hlpc, Nat.mul_comm rc lpc]
    omega
  have hxw1 : (r1.offset + l1) / lpc * cw + x1 < w := by
    rw [hw, Nat.mul_comm rc cw]
    exact enc_lt cw rc x1 _ hx1 hcol1
  have hxw2 : (r2.offset + l2) / lpc * cw + x2 < w := by
    rw [hw, Nat.mul_comm rc cw]
    exact enc_lt cw rc x2 _ hx2 hcol2
  obtain ⟨hy, hx⟩ := enc_inj w _ _ _ _ hxw1 hxw2 (he1.symm.trans he2)
  refine inRect_disjoint lpc cw lh (r1.offset + l1) (r2.offset + l2)
    ((r1.offset + l1) / lpc * cw + x1) ((r1.offset + l1) % lpc * lh + hh1) hcw hlh
    (by omega) (inRect_of_cell _ _ _ _ _ _ hx1 hhh1) ?_
  rw [hx, hy]
  exact inRect_of_cell _ _ _ _ _ _ hx2 hhh2

theorem foldl_mergeStep_components (total lpc cw lh : ℕ) :
    ∀ (rs : List FileRender) (st : DrainState),
      (rs.foldl (mergeStep total lpc cw lh) st).img
        = rs.foldl (mergeFile total lpc cw lh) st.img ∧
      (rs.foldl (mergeStep total lpc cw lh) st).line_num
        = st.line_num + (rs.map FileRender.lines).sum := by
  intro rs
  induction rs with
  | nil => intro st; exact ⟨rfl, by simp⟩
  | cons r rest ih =>
    intro st
    rw [List.foldl_cons, List.foldl_cons]
    refine ⟨(ih _).1, ?_⟩
    rw [(ih _).2]
    simp only [mergeStep, List.map_cons, List.sum_cons]
    omega

theorem foldl_mergeFile_data (total lpc cw lh : ℕ) :
    ∀ (rs : List FileRender) (c : Canvas),
      rs.foldl (mergeFile total lpc cw lh) c
        = ⟨c.w, c.h, rs.foldl
            (fun d r => applyWrites (mergeWrites total lpc cw lh c.w r) d) c.data⟩ := by
  intro rs
  induction rs with
  | nil => intro c; rfl
  | cons r rest ih =>
    intro c
    rw [List.foldl_cons, List.foldl_cons, ih]
    rfl

/-- C2 amended: with the per-file worker outputs fixed (each worker's result
depends only on its own file), the parallel merge produces byte-identical
canvases for every order in which the results arrive, *provided* the layout
leaves no trailing cells (the rendered lines cover `lines_per_column *
required_columns`).  With trailing cells, the fill color is the background
of whichever outcome arrived last, so canvases can differ between arrival
orders (counterexample) — and agreement with the sequential canvas
additionally requires each file to render to the same pixels in both modes,
which the stateful highlighter shared across files of one syntax does not
guarantee. -/
theorem parallel_canvas_order_independent (total lpc rc cw lh : ℕ)
    (results results' : List FileRender) (c0 : Canvas)
    (hcw : 0 < cw) (hlh : 0 < lh) (hlpc : 0 < lpc)
    (hperm : results.Perm results')
    (hw : c0.w = rc * cw)
    (hmem : ∀ r ∈ results, r.offset + r.lines ≤ total)
    (htot : total ≤ lpc * rc)
    (hpair : results.Pairwise (fun r1 r2 =>
      r1.offset + r1.lines ≤ r2.offset ∨ r2.offset + r2.lines ≤ r1.offset))
    (hfull : lpc * rc ≤ (results.map FileRender.lines).sum) :
    parallelRender total lpc rc cw lh (fun _ => false) results c0
      = parallelRender total lpc rc cw lh (fun _ => false) results' c0 := by
  have hd1 := drainResults_no_cancel total lpc cw lh (fun _ => false) results 0
    ⟨c0, none, 0, 0⟩ (fun _ _ => rfl)
  have hd2 := drainResults_no_cancel total lpc cw lh (fun _ => false) results' 0
    ⟨c0, none, 0, 0⟩ (fun _ _ => rfl)
  simp only [parallelRender, hd1, hd2]
  have hsum : (results'.map FileRender.lines).sum = (results.map FileRender.lines).sum :=
    (hperm.map FileRender.lines).sum_eq.symm
  have hc1 := foldl_mergeStep_components total lpc cw lh results ⟨c0, none, 0, 0⟩
  have hc2 := foldl_mergeStep_components total lpc cw lh results' ⟨c0, none, 0, 0⟩
  have hln1 : (results.foldl (mergeStep total lpc cw lh) ⟨c0, none, 0, 0⟩).line_num
      = (results.map FileRender.lines).sum := by rw [hc1.2]; simp
  have hln2 : (results'.foldl (mergeStep total lpc cw lh) ⟨c0, none, 0, 0⟩).line_num
      = (results.map FileRender.lines).sum := by rw [hc2.2, hsum]; simp
  rw [fillTrailing, fillTrailing, hln1, hln2,
    show lpc * rc - (results.map FileRender.lines).sum = 0 by omega]
  show some (results.foldl (mergeStep total lpc cw lh) ⟨c0, none, 0, 0⟩).img
      = some (results'.foldl (mergeStep total lpc cw lh) ⟨c0, none, 0, 0⟩).img
  rw [hc1.1, hc2.1]
  show some (results.foldl (mergeFile total lpc cw lh) c0)
      = some (results'.foldl (mergeFile total lpc cw lh) c0)
  rw [foldl_mergeFile_data, foldl_mergeFile_data]
  have hfold : results.foldl
        (fun d r => applyWrites (mergeWrites total lpc cw lh c0.w r) d) c0.data
      = results'.foldl
        (fun d r => applyWrites (mergeWrites total lpc cw lh c0.w r) d) c0.data := by
    refine hperm.foldl_eq' ?_ c0.data
    intro r1 hr1 r2 hr2 d
    by_cases hrr : r1 = r2
    · rw [hrr]
    · have hsymm : Symmetric (fun a b : FileRender =>
          a.offset + a.lines ≤ b.offset ∨ b.offset + b.lines ≤ a.offset) :=
        fun a b hab => hab.symm
      have hdisj := hpair.forall hsymm hr1 hr2 hrr
      exact applyWrites_comm _ _ d
        (mergeWrites_indices_disjoint total lpc cw lh rc c0.w hcw hlh hlpc hw r2 r1
          (hmem r2 hr2) (hmem r1 hr1) htot hdisj.symm)
  rw [hfold]

theorem parallel_canvas_order_independent_witness :
    parallelRender 4 2 2 1 1 (fun _ => false)
        [⟨⟨1, 2, [⟨1, 1, 1⟩, ⟨2, 2, 2⟩]⟩, some ⟨255, 0, 0⟩, 0, 2, 0⟩,
         ⟨⟨1, 2, [⟨3, 3, 3⟩, ⟨4, 4, 4⟩]⟩, some ⟨0, 0, 255⟩, 0, 2, 2⟩]
        ⟨2, 2, List.replicate 4 ⟨0, 0, 0⟩⟩
      = parallelRender 4 2 2 1 1 (fun _ => false)
        [⟨⟨1, 2, [⟨3, 3, 3⟩, ⟨4, 4, 4⟩]⟩, some ⟨0, 0, 255⟩, 0, 2, 2⟩,
         ⟨⟨1, 2, [⟨1, 1, 1⟩, ⟨2, 2, 2⟩]⟩, some ⟨255, 0, 0⟩, 0, 2, 0⟩]
        ⟨2, 2, List.replicate 4 ⟨0, 0, 0⟩⟩ :=
  parallel_canvas_order_independent 4 2 2 1 1 _ _ _ (by norm_num) (by norm_num)
    (by norm_num) (by decide) rfl (by decide) (by norm_num) (by decide) (by decide)

/-! ## The layout search: arithmetic groundwork for the optimality analysis -/

theorem requiredColumns_pos (n lpc : ℕ) (hn : 0 < n) (hl : 0 < lpc) :
    0 < requiredColumns n lpc := by
  rw [requiredColumns]
  by_cases h : n % lpc = 0
  · have hle : lpc ≤ n := by
      by_contra hlt
      push_neg at hlt
      rw [Nat.mod_eq_of_lt hlt] at h
      omega
    have := Nat.div_pos hle hl
    omega
  · simp [h]

theorem le_requiredColumns_mul (n lpc : ℕ) (hl : 0 < lpc) :
    n ≤ requiredColumns n lpc * lpc := by
  rw [requiredColumns]
  by_cases h : n % lpc = 0
  · rw [if_neg (by omega), Nat.add_zero]
    exact le_of_eq (Nat.div_mul_cancel (Nat.dvd_of_mod_eq_zero h)).symm
  · rw [if_pos h]
    have h2 := Nat.div_add_mod n lpc
    have h3 : n % lpc < lpc := Nat.mod_lt n hl
    calc n = lpc * (n / lpc) + n % lpc := h2.symm
    _ ≤ lpc * (n / lpc) + lpc := by omega
    _ = (n / lpc + 1) * lpc := by ring

theorem requiredColumns_le_iff (n lpc k : ℕ) (hl : 0 < lpc) :
    requiredColumns n lpc ≤ k ↔ n ≤ k * lpc := by
  constructor
  · intro h
    calc n ≤ requiredColumns n lpc * lpc := le_requiredColumns_mul n lpc hl
    _ ≤ k * lpc := Nat.mul_le_mul_right lpc h
  · intro h
    rw [requiredColumns]
    by_cases hm : n % lpc = 0
    · rw [if_neg (by omega)]
      have h1 := Nat.div_le_div_right (c := lpc) h
      rw [Nat.mul_div_cancel k hl] at h1
      omega
    · rw [if_pos hm]
      by_contra hc
      push_neg at hc
      have hk : k ≤ n / lpc := by omega
      have h1 : k * lpc ≤ n / lpc * lpc := Nat.mul_le_mul_right lpc hk
      have h2 : n / lpc * lpc ≤ n := Nat.div_mul_le_self n lpc
      have h3 : n = k * lpc := by omega
      rw [h3] at hm
      exact hm (Nat.mul_mod_left k lpc)

theorem requiredColumns_antitone (n i j : ℕ) (hi : 0 < i) (hij : i ≤ j) :
    requiredColumns n j ≤ requiredColumns n i := by
  rw [requiredColumns_le_iff n j _ (by omega)]
  calc n ≤ requiredColumns n i * i := le_requiredColumns_mul n i hi
  _ ≤ requiredColumns n i * j := Nat.mul_le_mul_left _ hij

theorem requiredColumns_one (n : ℕ) : requiredColumns n 1 = n := by
  rw [requiredColumns]
  simp [Nat.mod_one, Nat.div_one]

theorem requiredColumns_ge_two (n lpc : ℕ) (h1 : 0 < lpc) (h2 : lpc < n) :
    2 ≤ requiredColumns n lpc := by
  by_contra hc
  push_neg at hc
  have := (requiredColumns_le_iff n lpc 1 h1).1 (by omega)
  omega

theorem requiredColumns_pred (n : ℕ) (hn : 2 ≤ n) : requiredColumns n (n - 1) = 2 := by
  have h1 : 2 ≤ requiredColumns n (n - 1) :=
    requiredColumns_ge_two n (n - 1) (by omega) (by omega)
  have h2 : requiredColumns n (n - 1) ≤ 2 := by
    rw [requiredColumns_le_iff n (n - 1) 2 (by omega)]
    omega
  omega

theorem aspectRatio_one (cw lh n : ℕ) : aspectRatio cw lh n 1 = (n * cw : ℚ) / lh := by
  rw [aspectRatio, requiredColumns_one]
  push_cast
  ring_nf

theorem aspectRatio_of_ge (cw lh n l : ℕ) (hn : 0 < n) (hl : n ≤ l) :
    aspectRatio cw lh n l = (cw : ℚ) / (l * lh) := by
  rw [aspectRatio, requiredColumns_of_le n l hn hl]
  push_cast
  ring_nf

theorem aspectRatio_strict_anti (cw lh n i j : ℕ) (hcw : 0 < cw) (hn : 0 < n)
    (hlh : 0 < lh) (hi : 0 < i) (hij : i < j) :
    aspectRatio cw lh n j < aspectRatio cw lh n i := by
  rw [aspectRatio, aspectRatio]
  have hrc : requiredColumns n j ≤ requiredColumns n i :=
    requiredColumns_antitone n i j hi (le_of_lt hij)
  have hnum : (requiredColumns n j * cw : ℚ) ≤ requiredColumns n i * cw := by
    exact_mod_cast Nat.mul_le_mul_right cw hrc
  have hposnum : (0 : ℚ) < requiredColumns n i * cw := by
    have h1 : 0 < requiredColumns n i * cw :=
      Nat.mul_pos (requiredColumns_pos n i hn hi) hcw
    exact_mod_cast h1
  have hden1 : (0 : ℚ) < (i : ℚ) * lh := by
    have : 0 < i * lh := Nat.mul_pos hi hlh
    exact_mod_cast this
  have hden2 : (0 : ℚ) < (j : ℚ) * lh := by
    have : 0 < j * lh := Nat.mul_pos (by omega) hlh
    exact_mod_cast this
  have hdenlt : (i : ℚ) * lh < (j : ℚ) * lh := by
    have : i * lh < j * lh := (Nat.mul_lt_mul_right hlh).mpr hij
    exact_mod_cast this
  calc (requiredColumns n j * cw : ℚ) / ((j : ℚ) * lh)
      ≤ (requiredColumns n i * cw : ℚ) / ((j : ℚ) * lh) := by
        exact (div_le_div_right hden2).2 hnum
  _ < (requiredColumns n i * cw : ℚ) / ((i : ℚ) * lh) := by
        exact div_lt_div_of_pos_left hposnum hden1 hdenlt

theorem aspectRatio_antitone (cw lh n i j : ℕ) (hcw : 0 < cw) (hn : 0 < n)
    (hlh : 0 < lh) (hi : 0 < i) (hij : i ≤ j) :
    aspectRatio cw lh n j ≤ aspectRatio cw lh n i := by
  rcases eq_or_lt_of_le hij with rfl | hlt
  · exact le_refl _
  · exact le_of_lt (aspectRatio_strict_anti cw lh n i j hcw hn hlh hi hlt)

/-- Above the (miscomputed) tallest threshold `column_width /
total_line_count * 2.0`, every ratio achievable with `lines_per_column ≥
total_line_count` lies strictly below the target. -/
theorem aspectRatio_lt_target (cw n lh l : ℕ) (t : ℚ) (hcw : 0 < cw) (hn : 0 < n)
    (hlh : 0 < lh) (ht : (cw : ℚ) / n * 2 < t) (hl : n ≤ l) :
    aspectRatio cw lh n l < t := by
  rw [aspectRatio_of_ge cw lh n l hn hl]
  have hq : (0 : ℚ) < (cw : ℚ) / n := by
    apply div_pos
    · exact_mod_cast hcw
    · exact_mod_cast hn
  have hle : (cw : ℚ) / ((l : ℚ) * lh) ≤ (cw : ℚ) / n := by
    apply div_le_div_of_nonneg_left
    · exact_mod_cast Nat.zero_le cw
    · exact_mod_cast hn
    · have : n ≤ l * lh := le_trans hl (Nat.le_mul_of_pos_right l hlh)
      exact_mod_cast this
  have : (cw : ℚ) / n < (cw : ℚ) / n * 2 := by linarith
  linarith

theorem abs_dist_lt_of_between (a a' t : ℚ) (h1 : a' < a) (h2 : a < t) :
    |a - t| < |a' - t| := by
  rw [abs_of_neg (by linarith), abs_of_neg (by linarith)]
  linarith

/-- Once the distance to the target stops shrinking at a step of a strictly
shrinking ratio sequence, every later ratio is at least as far away. -/
theorem valley (cw lh n : ℕ) (t : ℚ) (hcw : 0 < cw) (hn : 0 < n) (hlh : 0 < lh)
    (i j : ℕ) (hi : 0 < i) (hij : i < j)
    (hd : |aspectRatio cw lh n i - t| ≤ |aspectRatio cw lh n j - t|) :
    ∀ k, j ≤ k → |aspectRatio cw lh n i - t| ≤ |aspectRatio cw lh n k - t| := by
  intro k hk
  have hji : aspectRatio cw lh n j < aspectRatio cw lh n i :=
    aspectRatio_strict_anti cw lh n i j hcw hn hlh hi hij
  have hjt : aspectRatio cw lh n j < t := by
    by_contra hc
    push_neg at hc
    rw [abs_of_nonneg (by linarith), abs_of_nonneg (by linarith)] at hd
    linarith
  have hkj : aspectRatio cw lh n k ≤ aspectRatio cw lh n j :=
    aspectRatio_antitone cw lh n j k hcw hn hlh (by omega) hk
  calc |aspectRatio cw lh n i - t| ≤ |aspectRatio cw lh n j - t| := hd
  _ = t - aspectRatio cw lh n j := by rw [abs_of_neg (by linarith)]; ring
  _ ≤ t - aspectRatio cw lh n k := by linarith
  _ = |aspectRatio cw lh n k - t| := by rw [abs_of_nonpos (by linarith)]; ring

theorem descent_chain (f : ℕ → ℚ) (m : ℕ)
    (h : ∀ j, 1 ≤ j → j + 1 < m → f (j + 1) < f j) :
    ∀ d l, 1 ≤ l → l + d + 1 = m → f (m - 1) ≤ f l := by
  intro d
  induction d with
  | zero =>
    intro l hl he
    have he' : m - 1 = l := by omega
    rw [he']
  | succ d ih =>
    intro l hl he
    have h1 : f (l + 1) < f l := h l hl (by omega)
    have h2 : f (m - 1) ≤ f (l + 1) := ih (l + 1) (by omega) (by omega)
    linarith

/-- A `lines_per_column` value the `force_full_columns` search can rest at:
the start value `1`, or a point where `required_columns` just changed. -/
def isCheckpoint (n l : ℕ) : Prop :=
  l = 1 ∨ requiredColumns n l ≠ requiredColumns n (l - 1)

theorem nextCheckpoint_spec (n R : ℕ) :
    ∀ fuel lpc, 1 ≤ lpc → lpc < n → requiredColumns n lpc = R → n ≤ lpc + fuel →
      ∃ c, nextCheckpoint n R fuel lpc = some c ∧ lpc < c ∧ c ≤ n ∧
        requiredColumns n c ≠ R ∧ ∀ j, lpc ≤ j → j < c → requiredColumns n j = R := by
  intro fuel
  induction fuel with
  | zero => intro lpc h1 h2 _ h4; omega
  | succ f ih =>
    intro lpc h1 h2 hR hfuel
    rw [nextCheckpoint]
    by_cases hc : requiredColumns n (lpc + 1) = R
    · rw [if_pos hc]
      have hlt : lpc + 1 < n := by
        rcases eq_or_lt_of_le (show lpc + 1 ≤ n by omega) with he | hlt
        · exfalso
          have hone : requiredColumns n (lpc + 1) = 1 := by
            rw [he]
            exact requiredColumns_of_le n n (by omega) (le_refl n)
          have htwo : 2 ≤ requiredColumns n lpc :=
            requiredColumns_ge_two n lpc h1 h2
          omega
        · exact hlt
      obtain ⟨c, hcEq, hc1, hc2, hc3, hc4⟩ := ih (lpc + 1) (by omega) hlt hc (by omega)
      refine ⟨c, hcEq, by omega, hc2, hc3, fun j hj1 hj2 => ?_⟩
      rcases eq_or_lt_of_le hj1 with rfl | hj
      · exact hR
      · exact hc4 j (by omega) hj2
    · rw [if_neg hc]
      refine ⟨lpc + 1, rfl, by omega, by omega, hc, fun j hj1 hj2 => ?_⟩
      have hj : j = lpc := by omega
      rw [hj]
      exact hR

theorem searchLoop_plain_spec (cw n : ℕ) (t : ℚ) (hcw : 0 < cw) (hn : 0 < n)
    (ht : (cw : ℚ) / n * 2 < t) :
    ∀ fuel lpc prev L, prev + 1 = lpc → 1 ≤ prev → n + 3 ≤ fuel + lpc →
      (∀ j, 1 ≤ j → j + 1 < lpc →
        |aspectRatio cw 2 n (j + 1) - t| < |aspectRatio cw 2 n j - t|) →
      ∃ m, searchLoop cw n 2 t false fuel lpc (some (aspectRatio cw 2 n prev))
          (aspectRatio cw 2 n lpc) L = some (m, requiredColumns n m) ∧
        1 ≤ m ∧ m ≤ n ∧
        ∀ l, 1 ≤ l → |aspectRatio cw 2 n m - t| ≤ |aspectRatio cw 2 n l - t| := by
  intro fuel
  induction fuel with
  | zero =>
    intro lpc prev L hprev h1p hfuel hdesc
    exfalso
    have h1 := hdesc n hn (by omega)
    have h2 := abs_dist_lt_of_between (aspectRatio cw 2 n n) (aspectRatio cw 2 n (n + 1)) t
      (aspectRatio_strict_anti cw 2 n n (n + 1) hcw hn (by norm_num) hn (by omega))
      (aspectRatio_lt_target cw n 2 n t hcw hn (by norm_num) ht (le_refl n))
    linarith
  | succ f ih =>
    intro lpc prev L hprev h1p hfuel hdesc
    simp only [searchLoop]
    by_cases hcond : |aspectRatio cw 2 n prev - t| > |aspectRatio cw 2 n lpc - t|
    · rw [if_pos (show loopCond t (some (aspectRatio cw 2 n prev))
        (aspectRatio cw 2 n lpc) from hcond)]
      rw [if_neg (show ¬ (false = true) by simp)]
      refine ih (lpc + 1) lpc L rfl (by omega) (by omega) ?_
      intro j hj hjlt
      rcases Nat.lt_or_ge (j + 1) lpc with hlt | hge
      · exact hdesc j hj hlt
      · have hj' : j = prev := by omega
        rw [hj', hprev]
        exact hcond
    · rw [if_neg (show ¬ loopCond t (some (aspectRatio cw 2 n prev))
        (aspectRatio cw 2 n lpc) from hcond)]
      rw [if_neg (show ¬ (false = true) by simp), if_neg (show ¬ lpc = 1 by omega),
        show lpc - 1 = prev by omega]
      refine ⟨prev, rfl, h1p, ?_, ?_⟩
      · by_contra hc
        push_neg at hc
        have h1 := hdesc n hn (by omega)
        have h2 := abs_dist_lt_of_between (aspectRatio cw 2 n n)
          (aspectRatio cw 2 n (n + 1)) t
          (aspectRatio_strict_anti cw 2 n n (n + 1) hcw hn (by norm_num) hn (by omega))
          (aspectRatio_lt_target cw n 2 n t hcw hn (by norm_num) ht (le_refl n))
        linarith
      · intro l hl
        rcases Nat.lt_or_ge l lpc with hllt | hlge
        · obtain ⟨d, hd⟩ : ∃ d, l + d + 1 = lpc := ⟨lpc - l - 1, by omega⟩
          have hchain := descent_chain (fun j => |aspectRatio cw 2 n j - t|) lpc hdesc d l hl hd
          rw [show lpc - 1 = prev by omega] at hchain
          exact hchain
        · exact valley cw 2 n t hcw hn (by norm_num) prev lpc h1p (by omega)
            (le_of_not_lt hcond) l hlge

theorem searchLoop_ffc_spec (cw n : ℕ) (t : ℚ) (hcw : 0 < cw) (hn3 : 3 ≤ n)
    (ht : (cw : ℚ) / n * 2 < t) :
    ∀ fuel c p, 1 ≤ p → p < c → c ≤ n →
      (∀ j, p ≤ j → j < c → requiredColumns n j = requiredColumns n p) →
      requiredColumns n c ≠ requiredColumns n p →
      isCheckpoint n p →
      (∀ l, 1 ≤ l → l < c → isCheckpoint n l →
        |aspectRatio cw 2 n p - t| ≤ |aspectRatio cw 2 n l - t|) →
      n + 2 ≤ fuel + c →
      ∃ m, searchLoop cw n 2 t true fuel c (some (aspectRatio cw 2 n p))
          (aspectRatio cw 2 n c) p = some (m, requiredColumns n m) ∧
        1 ≤ m ∧ m ≤ n ∧ isCheckpoint n m ∧
        ∀ l, 1 ≤ l → isCheckpoint n l →
          |aspectRatio cw 2 n m - t| ≤ |aspectRatio cw 2 n l - t| := by
  intro fuel
  induction fuel with
  | zero =>
    intro c p _ _ hcn _ _ _ _ hfuel
    omega
  | succ f ih =>
    intro c p hp hpc hcn hconst hchange hcp hdom hfuel
    have hn : 0 < n := by omega
    simp only [searchLoop]
    by_cases hcond : |aspectRatio cw 2 n p - t| > |aspectRatio cw 2 n c - t|
    · rw [if_pos (show loopCond t (some (aspectRatio cw 2 n p))
        (aspectRatio cw 2 n c) from hcond)]
      have hclt : c < n := by
        rcases eq_or_lt_of_le hcn with rfl | h
        · exfalso
          have hrcp : requiredColumns c p = 2 := by
            have h1 := hconst (c - 1) (by omega) (by omega)
            rw [requiredColumns_pred c (by omega)] at h1
            omega
          have hnle2p : c ≤ 2 * p := by
            have := (requiredColumns_le_iff c p 2 (by omega)).1 (le_of_eq hrcp)
            omega
          have hp0 : (0 : ℚ) < (p : ℚ) := by exact_mod_cast (by omega : 0 < p)
          have hn0 : (0 : ℚ) < (c : ℚ) := by exact_mod_cast hn
          have hcast : (c : ℚ) ≤ 2 * (p : ℚ) := by exact_mod_cast hnle2p
          have hcw0 : (0 : ℚ) ≤ (cw : ℚ) := by positivity
          have harp : aspectRatio cw 2 c p = (cw : ℚ) / p := by
            rw [aspectRatio, hrcp]
            push_cast
            rw [div_eq_div_iff (mul_ne_zero (ne_of_gt hp0) two_ne_zero) (ne_of_gt hp0)]
            ring
          have harpt : aspectRatio cw 2 c p < t := by
            rw [harp]
            have h2p : (cw : ℚ) / p ≤ (cw : ℚ) / c * 2 := by
              rw [div_mul_eq_mul_div, div_le_div_iff hp0 hn0]
              nlinarith [mul_le_mul_of_nonneg_left hcast hcw0]
            linarith
          have harn : aspectRatio cw 2 c c < aspectRatio cw 2 c p :=
            aspectRatio_strict_anti cw 2 c p c hcw hn (by norm_num) (by omega) hpc
          have hlt := abs_dist_lt_of_between (aspectRatio cw 2 c p)
            (aspectRatio cw 2 c c) t harn harpt
          linarith
        · exact h
      obtain ⟨c', hncEq, hc'1, hc'2, hc'3, hc'4⟩ :=
        nextCheckpoint_spec n (requiredColumns n c) (n + 1) c (by omega) hclt rfl (by omega)
      rw [hncEq]
      refine ih c' c (by omega) hc'1 hc'2 hc'4 hc'3 ?_ ?_ (by omega)
      · refine Or.inr ?_
        have h1 : requiredColumns n (c - 1) = requiredColumns n p :=
          hconst (c - 1) (by omega) (by omega)
        rw [h1]
        exact hchange
      · intro l hl hlc' hlcp
        rcases Nat.lt_or_ge l c with hlc | hgec
        · have hd1 := hdom l hl hlc hlcp
          have hd2 : |aspectRatio cw 2 n c - t| < |aspectRatio cw 2 n p - t| := hcond
          linarith
        · rcases eq_or_lt_of_le hgec with he | hgt
          · rw [← he]
          · exfalso
            have h1 : requiredColumns n l = requiredColumns n c := hc'4 l (by omega) hlc'
            have h2 : requiredColumns n (l - 1) = requiredColumns n c :=
              hc'4 (l - 1) (by omega) (by omega)
            rcases hlcp with h3 | h3
            · omega
            · rw [h1, h2] at h3
              exact h3 rfl
    · rw [if_neg (show ¬ loopCond t (some (aspectRatio cw 2 n p))
        (aspectRatio cw 2 n c) from hcond)]
      refine ⟨p, rfl, hp, by omega, hcp, ?_⟩
      intro l hl hlcp
      rcases Nat.lt_or_ge l c with hlc | hgec
      · exact hdom l hl hlc hlcp
      · exact valley cw 2 n t hcw hn (by norm_num) p c hp hpc (le_of_not_lt hcond) l hgec


theorem determine_dimensions_search (fuel cw n lh : ℕ) (t : ℚ) (ffc : Bool)
    (h1 : ¬ t ≤ (cw : ℚ) / n * 2) (h2 : ¬ t ≥ (n : ℚ) * cw / 2) :
    determine_dimensions fuel cw n lh t ffc =
      searchLoop cw n lh t ffc fuel 1 none ((cw : ℚ) * n / (1 * 2)) 1 := by
  simp only [determine_dimensions]
  rw [if_neg h1, if_neg h2]

theorem searchLoop_step1 (cw n lh : ℕ) (t : ℚ) (fuel : ℕ) (cur : ℚ) (L : ℕ) :
    searchLoop cw n lh t false (fuel + 1) 1 none cur L =
      searchLoop cw n lh t false fuel 2 (some cur) (aspectRatio cw lh n 2) L := by
  simp only [searchLoop]
  rw [if_pos (show loopCond t none cur from trivial),
    if_neg (show ¬ (false = true) by simp)]

theorem searchLoop_step1_ffc (cw n lh : ℕ) (t : ℚ) (fuel : ℕ) (cur : ℚ) (L c : ℕ)
    (hc : nextCheckpoint n (requiredColumns n 1) (n + 1) 1 = some c) :
    searchLoop cw n lh t true (fuel + 1) 1 none cur L =
      searchLoop cw n lh t true fuel c (some cur) (aspectRatio cw lh n c) 1 := by
  simp only [searchLoop]
  rw [if_pos (show loopCond t none cur from trivial), hc, if_pos trivial]

theorem searchLoopB_state2 (fuel : ℕ) :
    searchLoop 1 4 1 (7/4) false (fuel + 1) 2 (some ((1 : ℚ) * 4 / (1 * 2)))
      (aspectRatio 1 1 4 2) 1 = some (1, 4) := by
  simp only [searchLoop]
  have hcond : ¬ loopCond (7/4) (some ((1 : ℚ) * 4 / (1 * 2))) (aspectRatio 1 1 4 2) := by
    show ¬ |(1 : ℚ) * 4 / (1 * 2) - 7/4| > |aspectRatio 1 1 4 2 - 7/4|
    rw [aspectRatio_1_1_4_2, show ((1 : ℚ) * 4 / (1 * 2)) = 2 by norm_num,
      abs_of_nonneg (by norm_num : (0:ℚ) ≤ 2 - 7/4),
      abs_of_nonpos (by norm_num : (1:ℚ) - 7/4 ≤ 0)]
    norm_num
  rw [if_neg hcond]
  decide

theorem searchLoopB_state1 (fuel : ℕ) :
    searchLoop 1 4 1 (7/4) false (fuel + 1 + 1) 1 none ((1 : ℚ) * 4 / (1 * 2)) 1 =
      some (1, 4) := by
  rw [searchLoop_step1]
  exact searchLoopB_state2 fuel

/-- C1 counterexample, two parts.  (a) With the real `line_height = 2` but a
target at the miscomputed tallest threshold (`column_width /
total_line_count * 2.0`, which is not the tallest achievable ratio), the
shortcut returns `(total_line_count, 1)` even though `lines_per_column = 2`
achieves the target exactly.  (b) With `line_height = 1` the initial
`cur_aspect_ratio` is still computed with the literal `2.0`, so the first
loop comparison uses a wrong distance and the search stops at
`lines_per_column = 1` although `lines_per_column = 2` is strictly closer
to the target under the code's own ratio formula. -/
theorem determine_dimensions_closest_cex :
    (determine_dimensions 6 1 4 2 (1/2) false = some (4, 1) ∧
      |aspectRatio 1 2 4 2 - 1/2| < |aspectRatio 1 2 4 4 - 1/2|) ∧
    (determine_dimensions 6 1 4 1 (7/4) false = some (1, 4) ∧
      |aspectRatio 1 1 4 2 - 7/4| < |aspectRatio 1 1 4 1 - 7/4|) := by
  refine ⟨⟨?_, ?_⟩, ⟨?_, ?_⟩⟩
  · simp only [determine_dimensions]
    rw [if_pos (by norm_num : (1/2 : ℚ) ≤ (1 : ℕ) / ((4 : ℕ) : ℚ) * 2)]
  · have e1 : aspectRatio 1 2 4 2 = 1/2 := by
      norm_num [aspectRatio, requiredColumns]
    have e2 : aspectRatio 1 2 4 4 = 1/8 := by
      norm_num [aspectRatio, requiredColumns]
    rw [e1, e2, abs_of_nonpos (by norm_num), abs_of_nonpos (by norm_num)]
    norm_num
  · simp only [determine_dimensions]
    rw [if_neg (by norm_num), if_neg (by norm_num)]
    exact searchLoopB_state1 4
  · have e1 : aspectRatio 1 1 4 1 = 4 := by
      norm_num [aspectRatio, requiredColumns]
    rw [e1, aspectRatio_1_1_4_2, abs_of_nonpos (by norm_num),
      abs_of_nonneg (by norm_num)]
    norm_num

/-- C1 amended: with `line_height = 2` (the literal the source hard-codes
into the initial ratio and both extreme thresholds) and a target strictly
above the code's tallest threshold `column_width / total_line_count * 2.0`,
`determine_dimensions` returns a pair `(lines_per_column,
required_columns)` with `required_columns = ceil(total_line_count /
lines_per_column)` whose aspect ratio is closest to the target — among all
`1 ≤ lines_per_column ≤ total_line_count` when `force_full_columns` is
off, and among the start value `1` together with the points where
`required_columns` changes when it is on.  The claim's unconditional
version fails: at or below that (miscomputed) threshold the shortcut can
return a suboptimal pair, and for `line_height ≠ 2` the hard-coded `2.0`
makes the search stop at a suboptimal pair (counterexample); with
`force_full_columns` the search need not terminate at all (C3). -/
theorem determine_dimensions_closest (cw n : ℕ) (t : ℚ) (ffc : Bool)
    (hcw : 0 < cw) (hn : 0 < n) (ht : (cw : ℚ) / n * 2 < t) :
    ∃ lpc rcols, determine_dimensions (n + 2) cw n 2 t ffc = some (lpc, rcols) ∧
      rcols = requiredColumns n lpc ∧ 1 ≤ lpc ∧ lpc ≤ n ∧
      (ffc = true → isCheckpoint n lpc) ∧
      ∀ l, 1 ≤ l → l ≤ n → (ffc = true → isCheckpoint n l) →
        |aspectRatio cw 2 n lpc - t| ≤ |aspectRatio cw 2 n l - t| := by
  have hcw0 : (0 : ℚ) < (cw : ℚ) := by exact_mod_cast hcw
  have hn0 : (0 : ℚ) < (n : ℚ) := by exact_mod_cast hn
  have h1 : ¬ t ≤ (cw : ℚ) / n * 2 := by linarith
  by_cases hwid : t ≥ (n : ℚ) * cw / 2
  · have hdd : determine_dimensions (n + 2) cw n 2 t ffc = some (1, n) := by
      simp only [determine_dimensions]
      rw [if_neg h1, if_pos hwid]
    refine ⟨1, n, hdd, (requiredColumns_one n).symm, le_refl 1, hn,
      fun _ => Or.inl rfl, ?_⟩
    intro l hl _ _
    have h1t : aspectRatio cw 2 n 1 ≤ t := by
      rw [aspectRatio_one]
      push_cast
      linarith
    have hle : aspectRatio cw 2 n l ≤ aspectRatio cw 2 n 1 :=
      aspectRatio_antitone cw 2 n 1 l hcw hn (by norm_num) (by norm_num) hl
    rw [abs_of_nonpos (by linarith), abs_of_nonpos (by linarith)]
    linarith
  · have hdd := determine_dimensions_search (n + 2) cw n 2 t ffc h1 hwid
    push_neg at hwid
    have hn3 : 3 ≤ n := by
      by_contra hc
      push_neg at hc
      interval_cases n
      · norm_num at ht hwid
        linarith
      · norm_num at ht hwid
        linarith
    have hcur : (cw : ℚ) * (n : ℚ) / (1 * 2) = aspectRatio cw 2 n 1 := by
      rw [aspectRatio_one]
      push_cast
      ring
    rw [hcur, show n + 2 = n + 1 + 1 from rfl] at hdd
    cases ffc with
    | false =>
      rw [searchLoop_step1 cw n 2 t (n + 1) (aspectRatio cw 2 n 1) 1] at hdd
      obtain ⟨m, hm, hm1, hmn, hopt⟩ :=
        searchLoop_plain_spec cw n t hcw hn ht (n + 1) 2 1 1 rfl (le_refl 1)
          (by omega) (fun j hj hjlt => absurd hjlt (by omega))
      rw [hm] at hdd
      exact ⟨m, requiredColumns n m, hdd, rfl, hm1, hmn,
        fun h => absurd h Bool.false_ne_true, fun l hl _ _ => hopt l hl⟩
    | true =>
      obtain ⟨c, hcEq, hc1, hc2, hc3, hc4⟩ :=
        nextCheckpoint_spec n (requiredColumns n 1) (n + 1) 1 (le_refl 1)
          (by omega) rfl (by omega)
      rw [searchLoop_step1_ffc cw n 2 t (n + 1) (aspectRatio cw 2 n 1) 1 c hcEq] at hdd
      have hdom : ∀ l, 1 ≤ l → l < c → isCheckpoint n l →
          |aspectRatio cw 2 n 1 - t| ≤ |aspectRatio cw 2 n l - t| := by
        intro l hl hlc hcp
        rcases eq_or_lt_of_le hl with rfl | hl1
        · exact le_refl _
        · exfalso
          rcases hcp with h | h
          · omega
          · have e1 : requiredColumns n l = requiredColumns n 1 := hc4 l (by omega) hlc
            have e2 : requiredColumns n (l - 1) = requiredColumns n 1 :=
              hc4 (l - 1) (by omega) (by omega)
            rw [e1, e2] at h
            exact h rfl
      obtain ⟨m, hm, hm1, hmn, hmcp, hopt⟩ :=
        searchLoop_ffc_spec cw n t hcw hn3 ht (n + 1) c 1 (le_refl 1) hc1 hc2 hc4 hc3
          (Or.inl rfl) hdom (by omega)
      rw [hm] at hdd
      exact ⟨m, requiredColumns n m, hdd, rfl, hm1, hmn, fun _ => hmcp,
        fun l hl _ hcp => hopt l hl (hcp rfl)⟩

theorem determine_dimensions_closest_witness :
    ∃ lpc rcols, determine_dimensions (4 + 2) 1 4 2 (9/8) false = some (lpc, rcols) ∧
      rcols = requiredColumns 4 lpc ∧ 1 ≤ lpc ∧ lpc ≤ 4 ∧
      (false = true → isCheckpoint 4 lpc) ∧
      ∀ l, 1 ≤ l → l ≤ 4 → (false = true → isCheckpoint 4 l) →
        |aspectRatio 1 2 4 lpc - 9/8| ≤ |aspectRatio 1 2 4 l - 9/8| :=
  determine_dimensions_closest 1 4 (9/8) false (by norm_num) (by norm_num)
    (by norm_num)
